import Mathlib

/-!
Shallow embedding of the mezura core (src/lib.rs and src/result_printer.rs).

Rust HashMap values keyed by String are modelled as association lists
(List (String × α)); HashMap::get_mut(k).unwrap() becomes an Option-valued
update that returns none exactly when the key is absent (the panic branch).
Rust usize is modelled as Nat (usize subtraction that cannot underflow under
the stated hypotheses is Nat subtraction), and f32/f64 arithmetic is modelled
as exact rational arithmetic over ℚ, with the Rust float-to-usize cast on
nonnegative values modelled as Int.toNat of the floor.
-/

namespace Mezura

/-- Lookup in an association list, mirroring HashMap::get on String keys. -/
def alookup {α : Type} (k : String) : List (String × α) → Option α
  | [] => none
  | (k₀, v) :: rest => if k₀ = k then some v else alookup k rest

/-- Key list of an association list (the HashMap key set). -/
def keysOf {α : Type} (m : List (String × α)) : List String := m.map Prod.fst

/-- HashMap::insert(k, v): replaces the value when the key is present,
otherwise appends the new binding. -/
def ainsert {α : Type} (m : List (String × α)) (k : String) (v : α) : List (String × α) :=
  match m with
  | [] => [(k, v)]
  | (k₀, v₀) :: rest => if k₀ = k then (k₀, v) :: rest else (k₀, v₀) :: ainsert rest k v

/-- HashMap::get_mut(k) followed by an in-place fallible mutation: none when
the key is absent (the unwrap panic) or when the mutation itself fails. -/
def updateAtM {α : Type} (k : String) (f : α → Option α) :
    List (String × α) → Option (List (String × α))
  | [] => none
  | (k₀, v) :: rest =>
    if k₀ = k then (f v).map (fun v₁ => (k₀, v₁) :: rest)
    else (updateAtM k f rest).map (fun r => (k₀, v) :: r)

/-- HashMap::get_mut(k).unwrap() followed by a total in-place mutation. -/
def updateAt {α : Type} (k : String) (f : α → α) (m : List (String × α)) :
    Option (List (String × α)) :=
  updateAtM k (fun v => some (f v)) m

/-- Keyword from src/lib.rs (domain module). -/
structure Keyword where
  descriptive_name : String
  aliases : List String
deriving DecidableEq

/-- Extension from src/lib.rs (domain module). -/
structure Extension where
  name : String
  string_symbols : List String
  comment_symbol : String
  mutliline_comment_start_symbol : Option String
  mutliline_comment_end_symbol : Option String
  keywords : List Keyword
deriving DecidableEq

/-- FileStats from src/lib.rs: per-file accumulator. -/
structure FileStats where
  lines : Nat
  code_lines : Nat
  keyword_occurences : List (String × Nat)
deriving DecidableEq

/-- ExtensionContentInfo from src/lib.rs: per-extension accumulator. -/
structure ExtensionContentInfo where
  lines : Nat
  code_lines : Nat
  keyword_occurences : List (String × Nat)
deriving DecidableEq

/-- ExtensionMetadata from src/lib.rs: per-extension discovery counters. -/
structure ExtensionMetadata where
  files : Nat
  bytes : Nat
deriving DecidableEq

/-- Metrics from src/lib.rs. -/
structure Metrics where
  files_per_sec : Nat
  lines_per_sec : Nat
deriving DecidableEq

/-- A faulty-file record (path, error text, recorded byte size), matching the
FaultyFilesRef element type (String, String, u64) in src/lib.rs. -/
structure FaultyFile where
  path : String
  err : String
  size : Nat
deriving DecidableEq

/-- ParseFilesError from src/lib.rs. -/
inductive ParseFilesError where
  | NoRelevantFiles : String → ParseFilesError
  | AllAreFaultyFiles : ParseFilesError
deriving DecidableEq

/-- get_stats_map from src/lib.rs: a zero-seeded map keyed by each keyword
descriptive name. -/
def get_stats_map (keywords : List Keyword) : List (String × Nat) :=
  keywords.foldl (fun m k => ainsert m k.descriptive_name 0) []

/-- get_keyword_stats_map from src/lib.rs: a zero-seeded map keyed by each of
the extension keyword descriptive names. -/
def get_keyword_stats_map (extension : Extension) : List (String × Nat) :=
  extension.keywords.foldl (fun m k => ainsert m k.descriptive_name 0) []

/-- FileStats::default from src/lib.rs. -/
def FileStats.default (keywords : List Keyword) : FileStats :=
  ⟨0, 0, get_stats_map keywords⟩

/-- FileStats::incr_keyword from src/lib.rs; none models the unwrap panic on
an absent keyword name. -/
def FileStats.incr_keyword (fs : FileStats) (keyword_name : String) : Option FileStats :=
  (updateAt keyword_name (fun v => v + 1) fs.keyword_occurences).map
    (fun m => { fs with keyword_occurences := m })

/-- From⟨&Extension⟩ for ExtensionContentInfo in src/lib.rs. -/
def ExtensionContentInfo.ofExtension (ext : Extension) : ExtensionContentInfo :=
  ⟨0, 0, get_keyword_stats_map ext⟩

/-- ExtensionMetadata::default (derived Default in src/lib.rs). -/
def ExtensionMetadata.default : ExtensionMetadata := ⟨0, 0⟩

/-- ExtensionMetadata::add_file_meta from src/lib.rs. -/
def ExtensionMetadata.add_file_meta (md : ExtensionMetadata) (bytes : Nat) : ExtensionMetadata :=
  ⟨md.files + 1, md.bytes + bytes⟩

/-- The keyword-map part of ExtensionContentInfo::add_file_stats: the loop
over the entries of the other map, each applied through get_mut(k).unwrap(). -/
def applyAdds (m : List (String × Nat)) : List (String × Nat) → Option (List (String × Nat))
  | [] => some m
  | (k, v) :: rest =>
    match updateAt k (fun w => w + v) m with
    | none => none
    | some m₁ => applyAdds m₁ rest

/-- ExtensionContentInfo::add_file_stats from src/lib.rs; none models the
unwrap panic on a keyword name absent from the accumulator. -/
def ExtensionContentInfo.add_file_stats (c : ExtensionContentInfo) (other : FileStats) :
    Option ExtensionContentInfo :=
  (applyAdds c.keyword_occurences other.keyword_occurences).map
    (fun m => ⟨c.lines + other.lines, c.code_lines + other.code_lines, m⟩)

/-- Folding a list of per-file stats into an accumulator with add_file_stats,
in list order, propagating the panic branch through Option. -/
def foldStats (init : ExtensionContentInfo) (l : List FileStats) : Option ExtensionContentInfo :=
  l.foldl (fun acc fs => acc.bind (fun c => c.add_file_stats fs)) (some init)

/-- make_extension_stats from src/lib.rs. -/
def make_extension_stats (extensions_map : List (String × Extension)) :
    List (String × ExtensionContentInfo) :=
  extensions_map.foldl (fun m kv => ainsert m kv.1 (ExtensionContentInfo.ofExtension kv.2)) []

/-- make_extension_metadata from src/lib.rs. -/
def make_extension_metadata (extension_map : List (String × Extension)) :
    List (String × ExtensionMetadata) :=
  extension_map.foldl (fun m kv => ainsert m kv.1 ExtensionMetadata.default) []

/-- Modelled from the spec: utils::get_file_extension (module putils is not
under src/). The spec classifies files by extension, so the extension of a
path is the suffix after the last dot, and a path with no dot has none. -/
def extOfChars : List Char → Option (List Char)
  | [] => none
  | c :: rest =>
    match extOfChars rest with
    | some e => some e
    | none => if c = '.' then some rest else none

/-- Modelled from the spec: utils::get_file_extension over a path string. -/
def get_file_extension (path : String) : Option String :=
  (extOfChars path.toList).map (fun cs => String.mk cs)

/-- remove_faulty_files_stats from src/lib.rs: for every faulty file whose
path has an extension, get_mut(ext).unwrap() then files -= 1 and
bytes -= recorded size. -/
def remove_faulty_files_stats (faulty_files : List FaultyFile)
    (extensions_metadata_map : List (String × ExtensionMetadata)) :
    Option (List (String × ExtensionMetadata)) :=
  match faulty_files with
  | [] => some extensions_metadata_map
  | f :: rest =>
    match get_file_extension f.path with
    | some x =>
      match updateAt x (fun md => ⟨md.files - 1, md.bytes - f.size⟩) extensions_metadata_map with
      | none => none
      | some m₁ => remove_faulty_files_stats rest m₁
    | none => remove_faulty_files_stats rest extensions_metadata_map

/-- get_activated_extensions_as_str from src/lib.rs. -/
def get_activated_extensions_as_str (extensions_of_interest : List String) : String :=
  if extensions_of_interest.isEmpty then ""
  else "\n(Activated extensions: " ++ String.intercalate ", " extensions_of_interest ++ ")"

/-- generate_metrics_if_parsing_took_more_than_one_sec from src/lib.rs. The
f32 divisions are modelled as exact rational divisions and the "as usize"
casts on the nonnegative results as Int.toNat of the floor. -/
def generate_metrics_if_parsing_took_more_than_one_sec (parsing_duration_millis : Nat)
    (relevant_files : Nat) (content_info_map : List (String × ExtensionContentInfo)) :
    Option Metrics :=
  if parsing_duration_millis ≤ 1000 then none
  else
    let duration_secs : ℚ := (parsing_duration_millis : ℚ) / 1000
    let total_lines : Nat := (content_info_map.map (fun x => x.2.lines)).sum
    let lines_per_sec : Nat := (⌊(total_lines : ℚ) / duration_secs⌋).toNat
    let files_per_sec : Nat := (⌊(relevant_files : ℚ) / duration_secs⌋).toNat
    some ⟨files_per_sec, lines_per_sec⟩

/-- remove_extensions_with_0_files from src/result_printer.rs: collect the
extensions whose metadata has zero files, then remove them from both maps. -/
def remove_extensions_with_0_files (content_info_map : List (String × ExtensionContentInfo))
    (extensions_metadata_map : List (String × ExtensionMetadata)) :
    List (String × ExtensionContentInfo) × List (String × ExtensionMetadata) :=
  let empty_extensions :=
    (extensions_metadata_map.filter (fun e => e.2.files == 0)).map Prod.fst
  (content_info_map.filter (fun e => !(empty_extensions.contains e.1)),
   extensions_metadata_map.filter (fun e => !(empty_extensions.contains e.1)))

/-- Outcome of the coordinator after the walker has counted the relevant
files: either one of the two typed failures of run, or the optional metrics
together with the two maps as they stand when run returns (after the
rendering step has pruned zero-file extensions). -/
inductive RunResult where
  | err : ParseFilesError → RunResult
  | ok : Option Metrics → List (String × ExtensionContentInfo) →
      List (String × ExtensionMetadata) → RunResult
deriving DecidableEq

/-- The decision tail of run from src/lib.rs, lines 55 to 85, as a pure
function of the walker and worker outputs: the zero-relevant check, the
all-faulty check, the faulty-metadata correction, the metrics computation,
and the zero-file pruning performed by format_and_print_results inside
result_printer.rs. The outer Option models the unwrap panic branch inside
remove_faulty_files_stats. -/
def run_after_parse (extensions_of_interest : List String) (relevant_files_num : Nat)
    (faulty_files : List FaultyFile)
    (extensions_metadata : List (String × ExtensionMetadata))
    (content_info_map : List (String × ExtensionContentInfo))
    (parsing_duration_millis : Nat) : Option RunResult :=
  if relevant_files_num = 0 then
    some (.err (.NoRelevantFiles (get_activated_extensions_as_str extensions_of_interest)))
  else if faulty_files.length = relevant_files_num then
    some (.err .AllAreFaultyFiles)
  else
    match remove_faulty_files_stats faulty_files extensions_metadata with
    | none => none
    | some meta₁ =>
      let metrics := generate_metrics_if_parsing_took_more_than_one_sec
          parsing_duration_millis relevant_files_num content_info_map
      let pruned := remove_extensions_with_0_files content_info_map meta₁
      some (.ok metrics pruned.1 pruned.2)

/-- Modelled from the spec: the worker-pool merge step (consumer.rs is not
under src/). On success the worker merges the per-file FileStats into the
matching ExtensionContentInfo entry of the shared map; none models the panic
on an absent extension key or keyword name. -/
def merge_file_stats (content_info_map : List (String × ExtensionContentInfo))
    (ext_name : String) (stats : FileStats) :
    Option (List (String × ExtensionContentInfo)) :=
  updateAtM ext_name (fun c => c.add_file_stats stats) content_info_map

/-- Modelled from the spec: the walker discovery step (producer.rs is not
under src/). For each matched file the walker records (extension, byte size)
into ExtensionMetadata immediately via add_file_meta; none models the panic
on an absent extension key. -/
def record_file_meta (extensions_metadata_map : List (String × ExtensionMetadata))
    (ext_name : String) (bytes : Nat) :
    Option (List (String × ExtensionMetadata)) :=
  updateAt ext_name (fun md => md.add_file_meta bytes) extensions_metadata_map

/-! Verticals of the overview section, from src/result_printer.rs. The
mutable vector of references sorted_verticals is modelled as a list of
indices sv into the verticals list, re-sorted with a stable merge sort by
descending value exactly where the Rust code calls sort_by. -/

/-- NUM_OF_VERTICALS from src/result_printer.rs. -/
def NUM_OF_VERTICALS : Nat := 50

/-- Value behind the reference sorted_verticals[i]. -/
def svGet (vals sv : List Nat) (i : Nat) : Nat := vals.getD (sv.getD i 0) 0

/-- Write through the reference sorted_verticals[i]. -/
def svSet (vals sv : List Nat) (i : Nat) (x : Nat) : List Nat := vals.set (sv.getD i 0) x

/-- sort_by(|a,b| b.cmp(a)) on the reference vector: stable sort of the
indices by descending current value. -/
def resortSV (vals sv : List Nat) : List Nat :=
  sv.mergeSort (fun i j => Nat.ble (vals.getD j 0) (vals.getD i 0))

/-- Length of the leading run of references whose value equals m: the
same_num_of_verticals_indices block of normalize_to_NUM_OF_VERTICALS. -/
def countLeadingEq (vals : List Nat) (m : Nat) : List Nat → Nat
  | [] => 0
  | i :: rest => if vals.getD i 0 = m then countLeadingEq vals m rest + 1 else 0

/-- Tie block of normalize_to_NUM_OF_VERTICALS: adjust the references at
positions i, i+1, ... for n steps, decrementing when over and incrementing
when under. -/
def tieAdjust (is_over : Bool) (sv : List Nat) : Nat → Nat → List Nat → List Nat
  | _, 0, vals => vals
  | i, n + 1, vals =>
    tieAdjust is_over sv (i + 1) n
      (svSet vals sv i (if is_over then svGet vals sv i - 1 else svGet vals sv i + 1))

/-- One iteration of the over branch of the final loop of
normalize_to_NUM_OF_VERTICALS. -/
def overStep (vals sv : List Nat) : List Nat × List Nat :=
  if svGet vals sv 0 > svGet vals sv 1 + 3 then
    (svSet vals sv 0 (svGet vals sv 0 - 1), sv)
  else
    let vals₁ := svSet vals sv 1 (svGet vals sv 1 - 1)
    (vals₁, if sv.length > 2 then resortSV vals₁ sv else sv)

/-- One iteration of the under branch of the final loop of
normalize_to_NUM_OF_VERTICALS. -/
def underStep (vals sv : List Nat) : List Nat × List Nat :=
  if svGet vals sv 0 > svGet vals sv 1 + 5 then
    let vals₁ := svSet vals sv 1 (svGet vals sv 1 + 1)
    (vals₁, if sv.length > 2 then resortSV vals₁ sv else sv)
  else
    (svSet vals sv 0 (svGet vals sv 0 + 1), sv)

/-- The final for loop of normalize_to_NUM_OF_VERTICALS, running a fixed
number of iterations. -/
def normLoop (is_over : Bool) : Nat → List Nat × List Nat → List Nat × List Nat
  | 0, s => s
  | n + 1, s => normLoop is_over n (if is_over then overStep s.1 s.2 else underStep s.1 s.2)

/-- normalize_to_NUM_OF_VERTICALS from src/result_printer.rs. -/
def normalize_to_NUM_OF_VERTICALS (verticals : List Nat) (sum : Nat) : List Nat :=
  let sv := resortSV verticals (List.range verticals.length)
  let is_over := decide (sum > NUM_OF_VERTICALS)
  let difference := if sum > NUM_OF_VERTICALS then sum - NUM_OF_VERTICALS
    else NUM_OF_VERTICALS - sum
  let max_value := svGet verticals sv 0
  let tie_count := countLeadingEq verticals max_value sv
  let used := min difference tie_count
  let vals₁ := if tie_count > 1 then tieAdjust is_over sv 0 used verticals else verticals
  let diff₁ := if tie_count > 1 then difference - used else difference
  if diff₁ = 0 then vals₁
  else
    let vals₂ := svSet vals₁ sv 0
      (if is_over then svGet vals₁ sv 0 - 1 else svGet vals₁ sv 0 + 1)
    let sv₂ := if is_over then resortSV vals₂ sv else sv
    (normLoop is_over (diff₁ - 1) (vals₂, sv₂)).1

/-- Body of the per-percentage loop of get_num_of_verticals: zero percent
gives zero verticals, otherwise round(percent / 2) clamped up to 1. The f64
percentage is modelled as a rational; f64 round (half away from zero) agrees
with Mathlib round on the nonnegative inputs, and the "as usize" cast with
Int.toNat. -/
def percent_to_verticals (files_percent : ℚ) : Nat :=
  if files_percent = 0 then 0
  else
    let n := (round (files_percent / 2)).toNat
    if n = 0 then 1 else n

/-- get_num_of_verticals from src/result_printer.rs. -/
def get_num_of_verticals (percentages : List ℚ) : List Nat :=
  let verticals := percentages.map percent_to_verticals
  let sum := verticals.sum
  if sum ≠ NUM_OF_VERTICALS then normalize_to_NUM_OF_VERTICALS verticals sum else verticals

/-- Sortedness of the reference vector of normalize_to_NUM_OF_VERTICALS:
the indices sv list the positions of vals in descending order of value. -/
def sortedSV (vals sv : List Nat) : Prop :=
  List.Pairwise (fun i j => vals.getD j 0 ≤ vals.getD i 0) sv

/-- Invariant tying the reference vector sv of normalize_to_NUM_OF_VERTICALS
to the verticals list: sv enumerates every position once, in descending order
of current value. -/
def SVInv (vals sv : List Nat) : Prop :=
  sv.Perm (List.range vals.length) ∧ sortedSV vals sv

/-- Values of vals read through the reference vector, in reference order. -/
def valsAt (vals sv : List Nat) : List Nat :=
  sv.map (fun i => vals.getD i 0)

/-- At least two entries of the list are nonzero. -/
def TwoPos (vals : List Nat) : Prop :=
  2 ≤ vals.countP (fun v => v != 0)

/-! Helper lemmas about the association-list operations. -/

theorem alookup_eq_none {α : Type} {k : String} :
    ∀ {m : List (String × α)}, alookup k m = none ↔ k ∉ keysOf m
  | [] => by simp [alookup, keysOf]
  | (k₀, v) :: rest => by
    by_cases hk : k₀ = k
    · simp [alookup, hk, keysOf]
    · simp [alookup, hk, keysOf, alookup_eq_none (m := rest), Ne.symm hk]

theorem alookup_isSome {α : Type} {k : String} {m : List (String × α)} :
    (alookup k m).isSome ↔ k ∈ keysOf m := by
  rw [Option.isSome_iff_ne_none]
  exact (not_iff_not.mpr alookup_eq_none).trans not_not

theorem updateAtM_keys {α : Type} {k : String} {f : α → Option α} :
    ∀ {m m₁ : List (String × α)}, updateAtM k f m = some m₁ → keysOf m₁ = keysOf m
  | [], _, h => by simp [updateAtM] at h
  | (k₀, v) :: rest, m₁, h => by
    by_cases hk : k₀ = k
    · simp only [updateAtM, if_pos hk, Option.map_eq_some'] at h
      obtain ⟨v₁, -, rfl⟩ := h
      simp [keysOf]
    · simp only [updateAtM, if_neg hk, Option.map_eq_some'] at h
      obtain ⟨r, hr, rfl⟩ := h
      have hr₂ : keysOf r = keysOf rest := updateAtM_keys hr
      simp only [keysOf, List.map_cons] at hr₂ ⊢
      rw [hr₂]

theorem updateAt_keys {α : Type} {k : String} {f : α → α} {m m₁ : List (String × α)}
    (h : updateAt k f m = some m₁) : keysOf m₁ = keysOf m :=
  updateAtM_keys h

theorem updateAt_eq_none {α : Type} {k : String} {f : α → α} :
    ∀ {m : List (String × α)}, updateAt k f m = none ↔ k ∉ keysOf m
  | [] => by simp [updateAt, updateAtM, keysOf]
  | (k₀, v) :: rest => by
    by_cases hk : k₀ = k
    · simp [updateAt, updateAtM, hk, keysOf]
    · rw [show updateAt k f ((k₀, v) :: rest) = (updateAt k f rest).map (fun r => (k₀, v) :: r)
        from by simp [updateAt, updateAtM, hk]]
      simp [Option.map_eq_none', updateAt_eq_none (m := rest), keysOf, Ne.symm hk]

theorem updateAt_isSome {α : Type} {k : String} {f : α → α} {m : List (String × α)} :
    (updateAt k f m).isSome ↔ k ∈ keysOf m := by
  rw [Option.isSome_iff_ne_none]
  exact (not_iff_not.mpr updateAt_eq_none).trans not_not

theorem updateAt_alookup {α : Type} {k : String} {f : α → α} :
    ∀ {m m₁ : List (String × α)}, updateAt k f m = some m₁ →
      ∀ k₁, alookup k₁ m₁ = if k₁ = k then (alookup k₁ m).map f else alookup k₁ m
  | [], _, h => by simp [updateAt, updateAtM] at h
  | (k₀, v) :: rest, m₁, h => by
    by_cases hk : k₀ = k
    · subst hk
      simp only [updateAt, updateAtM, if_pos, Option.map_some', Option.some.injEq] at h
      subst h
      intro k₁
      by_cases hk₁ : k₁ = k₀
      · subst hk₁
        simp [alookup]
      · have hne : ¬ k₀ = k₁ := fun hh => hk₁ hh.symm
        simp [alookup, hk₁, hne]
    · simp only [updateAt, updateAtM, if_neg hk, Option.map_eq_some'] at h
      obtain ⟨r, hr, rfl⟩ := h
      intro k₁
      by_cases hk₀ : k₀ = k₁
      · subst hk₀
        simp [alookup, hk]
      · simp only [alookup, if_neg hk₀]
        exact updateAt_alookup hr k₁

theorem updateAt_exists {α : Type} {k : String} {f : α → α} {m : List (String × α)}
    (h : k ∈ keysOf m) : ∃ m₁, updateAt k f m = some m₁ := by
  have := (updateAt_isSome (k := k) (f := f) (m := m)).mpr h
  exact Option.isSome_iff_exists.mp this

theorem applyAdds_keys :
    ∀ {l m m₁ : List (String × Nat)}, applyAdds m l = some m₁ → keysOf m₁ = keysOf m
  | [], m, m₁, h => by
    simp only [applyAdds, Option.some.injEq] at h
    rw [h]
  | (k, v) :: rest, m, m₁, h => by
    simp only [applyAdds] at h
    rcases hu : updateAt k (fun w => w + v) m with _ | m₂
    · rw [hu] at h
      cases h
    · rw [hu] at h
      exact (applyAdds_keys h).trans (updateAt_keys hu)

theorem applyAdds_isSome :
    ∀ {l m : List (String × Nat)}, (∀ p ∈ l, p.1 ∈ keysOf m) → (applyAdds m l).isSome
  | [], m, _ => by simp [applyAdds]
  | (k, v) :: rest, m, hmem => by
    simp only [applyAdds]
    obtain ⟨m₂, hm₂⟩ := updateAt_exists (f := fun w => w + v)
      (hmem (k, v) (List.mem_cons_self _ _))
    rw [hm₂]
    exact applyAdds_isSome (fun p hp => (updateAt_keys hm₂).symm ▸ hmem p (List.mem_cons_of_mem _ hp))

theorem applyAdds_alookup :
    ∀ {l m m₁ : List (String × Nat)}, (keysOf l).Nodup → applyAdds m l = some m₁ →
      ∀ k, alookup k m₁ = (alookup k m).map (fun w => w + (alookup k l).getD 0)
  | [], m, m₁, _, h, k => by
    simp only [applyAdds, Option.some.injEq] at h
    subst h
    simp [alookup]
  | (k₀, v₀) :: rest, m, m₁, hnd, h, k => by
    simp only [applyAdds] at h
    rcases hu : updateAt k₀ (fun w => w + v₀) m with _ | m₂
    · rw [hu] at h
      cases h
    · rw [hu] at h
      have hnd₂ : (keysOf rest).Nodup := by
        simpa [keysOf] using hnd.of_cons
      have hk₀rest : k₀ ∉ keysOf rest := by
        have := hnd
        simp only [keysOf, List.map_cons, List.nodup_cons] at this
        exact this.1
      have ih := applyAdds_alookup hnd₂ h
      by_cases hk : k = k₀
      · subst hk
        have hrest : alookup k rest = none := alookup_eq_none.mpr hk₀rest
        rw [ih k, updateAt_alookup hu k, if_pos rfl]
        simp [alookup, hrest, Option.map_map, Function.comp_def]
      · have hl : alookup k ((k₀, v₀) :: rest) = alookup k rest := by
          have hne : ¬ k₀ = k := fun hh => hk hh.symm
          simp [alookup, hne]
        rw [ih k, updateAt_alookup hu k, if_neg hk, hl]

theorem remove_faulty_keys :
    ∀ {faulty : List FaultyFile} {m m₁ : List (String × ExtensionMetadata)},
      remove_faulty_files_stats faulty m = some m₁ → keysOf m₁ = keysOf m
  | [], m, m₁, h => by
    simp only [remove_faulty_files_stats, Option.some.injEq] at h
    rw [h]
  | f :: rest, m, m₁, h => by
    rcases hx : get_file_extension f.path with _ | x
    · simp only [remove_faulty_files_stats, hx] at h
      exact remove_faulty_keys h
    · simp only [remove_faulty_files_stats, hx] at h
      rcases hu : updateAt x (fun md => ⟨md.files - 1, md.bytes - f.size⟩) m with _ | m₂
      · simp only [hu] at h
        cases h
      · simp only [hu] at h
        exact (remove_faulty_keys h).trans (updateAt_keys hu)

theorem remove_faulty_alookup_frame :
    ∀ {faulty : List FaultyFile} {m m₁ : List (String × ExtensionMetadata)},
      remove_faulty_files_stats faulty m = some m₁ →
      ∀ k, (∀ f ∈ faulty, get_file_extension f.path ≠ some k) → alookup k m₁ = alookup k m
  | [], m, m₁, h, k, _ => by
    simp only [remove_faulty_files_stats, Option.some.injEq] at h
    rw [h]
  | f :: rest, m, m₁, h, k, hnot => by
    rcases hx : get_file_extension f.path with _ | x
    · simp only [remove_faulty_files_stats, hx] at h
      exact remove_faulty_alookup_frame h k (fun g hg => hnot g (List.mem_cons_of_mem _ hg))
    · simp only [remove_faulty_files_stats, hx] at h
      rcases hu : updateAt x (fun md => ⟨md.files - 1, md.bytes - f.size⟩) m with _ | m₂
      · simp only [hu] at h
        cases h
      · simp only [hu] at h
        have hxk : ¬ k = x := by
          intro hh
          exact hnot f (List.mem_cons_self _ _) (hh ▸ hx)
        have h₂ := remove_faulty_alookup_frame h k
          (fun g hg => hnot g (List.mem_cons_of_mem _ hg))
        rw [h₂, updateAt_alookup hu k, if_neg hxk]

/-! Claims. -/

/-- C1: for every faulty file record whose path has an extension present in
the metadata map, the correction step decrements that extension file count by
exactly 1 and its byte count by exactly the recorded size; in the concrete
scenario of extension "x" with discovered files of sizes 10, 20, 30 where the
size-20 file is faulty, the corrected ExtensionMetadata for "x" is 2 files and
40 bytes, so the metadata excludes the file whose classification failed. -/
theorem C1_faulty_correction :
    (∀ (f : FaultyFile) (x : String) (m : List (String × ExtensionMetadata)) (files bytes : Nat),
      get_file_extension f.path = some x →
      alookup x m = some ⟨files, bytes⟩ →
      1 ≤ files → f.size ≤ bytes →
      ∃ m₁, remove_faulty_files_stats [f] m = some m₁ ∧
        alookup x m₁ = some ⟨files - 1, bytes - f.size⟩ ∧
        files - 1 + 1 = files ∧ (bytes - f.size) + f.size = bytes) ∧
    remove_faulty_files_stats [⟨"b.x", "unreadable", 20⟩] [("x", ⟨3, 60⟩)] =
      some [("x", ⟨2, 40⟩)] := by
  constructor
  · intro f x m files bytes hx hm hfiles hsize
    have hmem : x ∈ keysOf m := alookup_isSome.mp (by rw [hm]; rfl)
    obtain ⟨m₁, hu⟩ := updateAt_exists
      (f := fun md => ⟨md.files - 1, md.bytes - f.size⟩) hmem
    refine ⟨m₁, ?_, ?_, Nat.succ_pred_eq_of_pos hfiles, Nat.sub_add_cancel hsize⟩
    · simp only [remove_faulty_files_stats, hx, hu]
    · rw [updateAt_alookup hu x, if_pos rfl, hm]
      rfl
  · decide

/-- Witness for C1 at the concrete scenario of the claim. -/
theorem C1_faulty_correction_witness :
    get_file_extension "b.x" = some "x" ∧
    alookup "x" [("x", (⟨3, 60⟩ : ExtensionMetadata))] = some ⟨3, 60⟩ ∧
    ∃ m₁, remove_faulty_files_stats [⟨"b.x", "unreadable", 20⟩] [("x", ⟨3, 60⟩)] = some m₁ ∧
      alookup "x" m₁ = some ⟨2, 40⟩ ∧ 2 + 1 = 3 ∧ 40 + 20 = 60 :=
  ⟨by decide, by decide,
    C1_faulty_correction.1 ⟨"b.x", "unreadable", 20⟩ "x" [("x", ⟨3, 60⟩)] 3 60
      (by decide) (by decide) (by decide) (by decide)⟩

/-- C10: the correction step modifies only metadata entries keyed by the
extensions of the faulty paths: an extension mentioned by no faulty file
keeps its metadata entry unchanged, and a faulty file whose path has no
extension changes nothing at all. -/
theorem C10_correction_frame :
    (∀ (faulty : List FaultyFile) (m m₁ : List (String × ExtensionMetadata)),
      remove_faulty_files_stats faulty m = some m₁ →
      ∀ k, (∀ f ∈ faulty, get_file_extension f.path ≠ some k) →
        alookup k m₁ = alookup k m) ∧
    (∀ (f : FaultyFile) (m : List (String × ExtensionMetadata)),
      get_file_extension f.path = none →
      remove_faulty_files_stats [f] m = some m) := by
  constructor
  · intro faulty m m₁ h k hnot
    exact remove_faulty_alookup_frame h k hnot
  · intro f m hnone
    simp [remove_faulty_files_stats, hnone]

/-- Witness for C10: a faulty file with no extension leaves the map intact,
and the entry of an extension with no faulty files is untouched. -/
theorem C10_correction_frame_witness :
    remove_faulty_files_stats [⟨"noext", "unreadable", 20⟩] [("x", ⟨3, 60⟩)] =
      some [("x", ⟨3, 60⟩)] ∧
    alookup "y" [("x", (⟨3, 60⟩ : ExtensionMetadata))] = alookup "y" [("x", ⟨3, 60⟩)] :=
  ⟨C10_correction_frame.2 ⟨"noext", "unreadable", 20⟩ [("x", ⟨3, 60⟩)] (by decide),
   C10_correction_frame.1 [⟨"noext", "unreadable", 20⟩] [("x", ⟨3, 60⟩)] [("x", ⟨3, 60⟩)]
     (C10_correction_frame.2 ⟨"noext", "unreadable", 20⟩ [("x", ⟨3, 60⟩)] (by decide))
     "y" (by decide)⟩

/-- C2: when zero relevant files were found, run fails with NoRelevantFiles
carrying the active extension filter diagnostics, built by joining the
configured extensions of interest and empty when none are configured. -/
theorem C2_no_relevant_files :
    ∀ (exts : List String) (faulty : List FaultyFile)
      (meta : List (String × ExtensionMetadata))
      (cinfo : List (String × ExtensionContentInfo)) (dur : Nat),
      run_after_parse exts 0 faulty meta cinfo dur =
        some (.err (.NoRelevantFiles (get_activated_extensions_as_str exts))) ∧
      get_activated_extensions_as_str [] = "" ∧
      (exts ≠ [] → get_activated_extensions_as_str exts =
        "\n(Activated extensions: " ++ String.intercalate ", " exts ++ ")") := by
  intro exts faulty meta cinfo dur
  refine ⟨by simp [run_after_parse], by decide, fun hne => ?_⟩
  simp [get_activated_extensions_as_str, hne]

/-- Witness for C2 at a concrete configuration. -/
theorem C2_no_relevant_files_witness :
    run_after_parse ["rs", "py"] 0 [] [] [] 5000 =
      some (.err (.NoRelevantFiles (get_activated_extensions_as_str ["rs", "py"]))) ∧
    (["rs", "py"] ≠ ([] : List String)) ∧
    get_activated_extensions_as_str ["rs", "py"] = "\n(Activated extensions: rs, py)" := by
  refine ⟨(C2_no_relevant_files ["rs", "py"] [] [] [] 5000).1, by decide, ?_⟩
  rw [(C2_no_relevant_files ["rs", "py"] [] [] [] 5000).2.2 (by decide)]
  decide

/-- C3: with at least one relevant file, run fails with AllAreFaultyFiles
exactly when the faulty list length equals the relevant-file count; when at
least one relevant file is not faulty this outcome is never returned. -/
theorem C3_all_faulty :
    ∀ (exts : List String) (relevant : Nat) (faulty : List FaultyFile)
      (meta : List (String × ExtensionMetadata))
      (cinfo : List (String × ExtensionContentInfo)) (dur : Nat),
      (1 ≤ relevant → faulty.length = relevant →
        run_after_parse exts relevant faulty meta cinfo dur =
          some (.err .AllAreFaultyFiles)) ∧
      (faulty.length < relevant →
        ∀ r, run_after_parse exts relevant faulty meta cinfo dur = some r →
          r ≠ .err .AllAreFaultyFiles) := by
  intro exts relevant faulty meta cinfo dur
  constructor
  · intro h₁ h₂
    have hne : relevant ≠ 0 := Nat.one_le_iff_ne_zero.mp h₁
    simp [run_after_parse, hne, h₂]
  · intro hlt r hr
    have hne : relevant ≠ 0 := Nat.pos_iff_ne_zero.mp (Nat.lt_of_le_of_lt (Nat.zero_le _) hlt)
    have hneq : faulty.length ≠ relevant := Nat.ne_of_lt hlt
    simp only [run_after_parse, if_neg hne, if_neg hneq] at hr
    rcases hrem : remove_faulty_files_stats faulty meta with _ | meta₁
    · simp only [hrem] at hr
      cases hr
    · simp only [hrem] at hr
      intro hcontra
      rw [hcontra] at hr
      cases hr

/-- Witness for C3: both branches at concrete inputs. -/
theorem C3_all_faulty_witness :
    run_after_parse ["rs"] 2 [⟨"a.rs", "e", 5⟩, ⟨"b.rs", "e", 6⟩] [("rs", ⟨2, 11⟩)]
      [("rs", ⟨0, 0, []⟩)] 500 = some (.err .AllAreFaultyFiles) ∧
    ∀ r, run_after_parse ["rs"] 2 [⟨"a.rs", "e", 5⟩] [("rs", ⟨2, 11⟩)]
      [("rs", ⟨0, 0, []⟩)] 500 = some r → r ≠ .err .AllAreFaultyFiles :=
  ⟨(C3_all_faulty ["rs"] 2 [⟨"a.rs", "e", 5⟩, ⟨"b.rs", "e", 6⟩] [("rs", ⟨2, 11⟩)]
      [("rs", ⟨0, 0, []⟩)] 500).1 (by decide) (by decide),
   (C3_all_faulty ["rs"] 2 [⟨"a.rs", "e", 5⟩] [("rs", ⟨2, 11⟩)]
      [("rs", ⟨0, 0, []⟩)] 500).2 (by decide)⟩

theorem ainsert_mem_keys {α : Type} {k k₁ : String} {v : α} :
    ∀ {m : List (String × α)}, (k₁ ∈ keysOf (ainsert m k v) ↔ k₁ ∈ keysOf m ∨ k₁ = k)
  | [] => by simp [ainsert, keysOf]
  | (k₀, v₀) :: rest => by
    by_cases hk : k₀ = k
    · subst hk
      simp only [ainsert, keysOf, List.map_cons, List.mem_cons, if_pos]
      tauto
    · simp only [ainsert, if_neg hk, keysOf, List.map_cons, List.mem_cons]
      rw [show List.map Prod.fst (ainsert rest k v) = keysOf (ainsert rest k v) from rfl,
        ainsert_mem_keys (m := rest)]
      simp only [keysOf]
      tauto

theorem mem_keys_foldl_ainsert :
    ∀ (kws : List Keyword) (acc : List (String × Nat)) (k : String),
      (k ∈ keysOf acc ∨ k ∈ kws.map Keyword.descriptive_name) →
      k ∈ keysOf (kws.foldl (fun m kw => ainsert m kw.descriptive_name 0) acc)
  | [], acc, k, h => by
    rcases h with h | h
    · simpa using h
    · simp at h
  | kw :: rest, acc, k, h => by
    simp only [List.foldl_cons]
    refine mem_keys_foldl_ainsert rest _ k ?_
    rcases h with h | h
    · exact Or.inl (ainsert_mem_keys.mpr (Or.inl h))
    · simp only [List.map_cons, List.mem_cons] at h
      rcases h with h | h
      · exact Or.inl (ainsert_mem_keys.mpr (Or.inr h))
      · exact Or.inr h

/-- C8: add_file_stats and incr_keyword look up keyword names through an
unwrap that panics on an absent name; when every looked-up name is present in
the accumulator key set the panic branch is unreachable and both operations
return a value, and the pre-seeded maps of FileStats::default and
From⟨&Extension⟩ provide exactly those names. -/
theorem C8_unwrap_safety :
    (∀ (c : ExtensionContentInfo) (fs : FileStats),
      (∀ k ∈ keysOf fs.keyword_occurences, k ∈ keysOf c.keyword_occurences) →
      (c.add_file_stats fs).isSome) ∧
    (∀ (fs : FileStats) (k : String), k ∈ keysOf fs.keyword_occurences →
      (fs.incr_keyword k).isSome) ∧
    (∀ ext : Extension, (FileStats.default ext.keywords).keyword_occurences =
      (ExtensionContentInfo.ofExtension ext).keyword_occurences) ∧
    (∀ (kws : List Keyword) (k : String), k ∈ kws.map Keyword.descriptive_name →
      k ∈ keysOf (FileStats.default kws).keyword_occurences) := by
  refine ⟨?_, ?_, fun ext => rfl, ?_⟩
  · intro c fs hsub
    have h := applyAdds_isSome (m := c.keyword_occurences) (l := fs.keyword_occurences)
      (fun p hp => hsub p.1 (List.mem_map_of_mem Prod.fst hp))
    rcases ha : applyAdds c.keyword_occurences fs.keyword_occurences with _ | m
    · rw [ha] at h
      cases h
    · simp [ExtensionContentInfo.add_file_stats, ha]
  · intro fs k hk
    obtain ⟨m₁, hm₁⟩ := updateAt_exists (f := fun v => v + 1) hk
    simp [FileStats.incr_keyword, hm₁]
  · intro kws k hk
    exact mem_keys_foldl_ainsert kws [] k (Or.inr hk)

/-- Witness for C8 at concrete stats and keyword lists. -/
theorem C8_unwrap_safety_witness :
    ((⟨1, 1, [("if", 2), ("for", 0)]⟩ : ExtensionContentInfo).add_file_stats
      ⟨10, 7, [("for", 3), ("if", 1)]⟩).isSome ∧
    ((⟨0, 0, [("if", 0), ("for", 0)]⟩ : FileStats).incr_keyword "for").isSome ∧
    "if" ∈ keysOf (FileStats.default [⟨"if", ["if"]⟩, ⟨"for", ["for"]⟩]).keyword_occurences :=
  ⟨C8_unwrap_safety.1 ⟨1, 1, [("if", 2), ("for", 0)]⟩ ⟨10, 7, [("for", 3), ("if", 1)]⟩
      (by decide),
   C8_unwrap_safety.2.1 ⟨0, 0, [("if", 0), ("for", 0)]⟩ "for" (by decide),
   C8_unwrap_safety.2.2.2 [⟨"if", ["if"]⟩, ⟨"for", ["for"]⟩] "if" (by decide)⟩

/-- C4: merging a FileStats into an ExtensionContentInfo is field-wise
addition: lines add to lines, code lines to code lines, and every keyword
count is added under its own name, those names being present in the
accumulator because FileStats and ExtensionContentInfo are pre-seeded from
the same keyword list. -/
theorem C4_merge_is_addition :
    (∀ (c : ExtensionContentInfo) (fs : FileStats),
      (keysOf fs.keyword_occurences).Nodup →
      (∀ k ∈ keysOf fs.keyword_occurences, k ∈ keysOf c.keyword_occurences) →
      ∃ c₁, c.add_file_stats fs = some c₁ ∧
        c₁.lines = c.lines + fs.lines ∧
        c₁.code_lines = c.code_lines + fs.code_lines ∧
        ∀ k, alookup k c₁.keyword_occurences =
          (alookup k c.keyword_occurences).map
            (fun w => w + (alookup k fs.keyword_occurences).getD 0)) ∧
    (∀ ext : Extension, (FileStats.default ext.keywords).keyword_occurences =
      (ExtensionContentInfo.ofExtension ext).keyword_occurences) := by
  refine ⟨?_, fun ext => rfl⟩
  intro c fs hnd hsub
  have h := applyAdds_isSome (m := c.keyword_occurences) (l := fs.keyword_occurences)
    (fun p hp => hsub p.1 (List.mem_map_of_mem Prod.fst hp))
  rcases ha : applyAdds c.keyword_occurences fs.keyword_occurences with _ | m
  · rw [ha] at h
    cases h
  · refine ⟨⟨c.lines + fs.lines, c.code_lines + fs.code_lines, m⟩, ?_, rfl, rfl, ?_⟩
    · simp [ExtensionContentInfo.add_file_stats, ha]
    · exact applyAdds_alookup hnd ha

/-- Witness for C4 at concrete stats. -/
theorem C4_merge_is_addition_witness :
    ∃ c₁, (⟨1, 1, [("if", 2), ("for", 0)]⟩ : ExtensionContentInfo).add_file_stats
        ⟨10, 7, [("for", 3), ("if", 1)]⟩ = some c₁ ∧
      c₁.lines = 1 + 10 ∧ c₁.code_lines = 1 + 7 ∧
      ∀ k, alookup k c₁.keyword_occurences =
        (alookup k [("if", 2), ("for", 0)]).map
          (fun w => w + (alookup k [("for", 3), ("if", 1)]).getD 0) :=
  C4_merge_is_addition.1 ⟨1, 1, [("if", 2), ("for", 0)]⟩ ⟨10, 7, [("for", 3), ("if", 1)]⟩
    (by decide) (by decide)

theorem updateAdd_comm :
    ∀ (m : List (String × Nat)) (k : String) (v : Nat) (k₁ : String) (v₁ : Nat),
      (updateAt k (fun w => w + v) m).bind (updateAt k₁ (fun w => w + v₁)) =
      (updateAt k₁ (fun w => w + v₁) m).bind (updateAt k (fun w => w + v))
  | [], k, v, k₁, v₁ => by simp [updateAt, updateAtM]
  | (k₀, w) :: rest, k, v, k₁, v₁ => by
    by_cases hk : k₀ = k <;> by_cases hk₁ : k₀ = k₁
    · subst hk
      subst hk₁
      simp [updateAt, updateAtM, Nat.add_right_comm]
    · subst hk
      rcases hr : updateAtM k₁ (fun x => some (x + v₁)) rest with _ | r <;>
        simp [updateAt, updateAtM, hk₁, hr]
    · subst hk₁
      rcases hr : updateAtM k (fun x => some (x + v)) rest with _ | r <;>
        simp [updateAt, updateAtM, hk, hr]
    · have e₁ : updateAt k (fun w => w + v) ((k₀, w) :: rest) =
          (updateAt k (fun w => w + v) rest).map (fun r => (k₀, w) :: r) := by
        simp [updateAt, updateAtM, hk]
      have e₂ : updateAt k₁ (fun w => w + v₁) ((k₀, w) :: rest) =
          (updateAt k₁ (fun w => w + v₁) rest).map (fun r => (k₀, w) :: r) := by
        simp [updateAt, updateAtM, hk₁]
      have e₃ : ∀ o : Option (List (String × Nat)),
          (o.map (fun r => (k₀, w) :: r)).bind (updateAt k₁ (fun w => w + v₁)) =
          (o.bind (updateAt k₁ (fun w => w + v₁))).map (fun r => (k₀, w) :: r) := by
        intro o
        rcases o with _ | r
        · rfl
        · simp [updateAt, updateAtM, hk₁]
      have e₄ : ∀ o : Option (List (String × Nat)),
          (o.map (fun r => (k₀, w) :: r)).bind (updateAt k (fun w => w + v)) =
          (o.bind (updateAt k (fun w => w + v))).map (fun r => (k₀, w) :: r) := by
        intro o
        rcases o with _ | r
        · rfl
        · simp [updateAt, updateAtM, hk]
      rw [e₁, e₂, e₃, e₄, updateAdd_comm rest k v k₁ v₁]

theorem applyAdds_cons_eq (m : List (String × Nat)) (k : String) (v : Nat)
    (rest : List (String × Nat)) :
    applyAdds m ((k, v) :: rest) =
      (updateAt k (fun w => w + v) m).bind (fun m₂ => applyAdds m₂ rest) := by
  rcases hu : updateAt k (fun w => w + v) m with _ | m₂ <;>
    simp [applyAdds, hu]

theorem updateAdd_applyAdds_comm :
    ∀ (l : List (String × Nat)) (m : List (String × Nat)) (k : String) (v : Nat),
      (updateAt k (fun w => w + v) m).bind (fun m₂ => applyAdds m₂ l) =
      (applyAdds m l).bind (updateAt k (fun w => w + v))
  | [], m, k, v => by
    rcases hu : updateAt k (fun w => w + v) m with _ | m₂ <;> simp [applyAdds, hu]
  | (k₁, v₁) :: rest, m, k, v => by
    simp only [applyAdds_cons_eq]
    calc (updateAt k (fun w => w + v) m).bind
          (fun m₂ => (updateAt k₁ (fun w => w + v₁) m₂).bind (fun m₃ => applyAdds m₃ rest))
        = ((updateAt k (fun w => w + v) m).bind (updateAt k₁ (fun w => w + v₁))).bind
            (fun m₃ => applyAdds m₃ rest) := (Option.bind_assoc _ _ _).symm
      _ = ((updateAt k₁ (fun w => w + v₁) m).bind (updateAt k (fun w => w + v))).bind
            (fun m₃ => applyAdds m₃ rest) := by rw [updateAdd_comm m k v k₁ v₁]
      _ = (updateAt k₁ (fun w => w + v₁) m).bind
            (fun m₂ => (updateAt k (fun w => w + v) m₂).bind (fun m₃ => applyAdds m₃ rest)) :=
          Option.bind_assoc _ _ _
      _ = (updateAt k₁ (fun w => w + v₁) m).bind
            (fun m₂ => (applyAdds m₂ rest).bind (updateAt k (fun w => w + v))) :=
          Option.bind_congr (fun m₂ _ => updateAdd_applyAdds_comm rest m₂ k v)
      _ = ((updateAt k₁ (fun w => w + v₁) m).bind (fun m₂ => applyAdds m₂ rest)).bind
            (updateAt k (fun w => w + v)) := (Option.bind_assoc _ _ _).symm

theorem applyAdds_chain_comm :
    ∀ (l₁ l₂ : List (String × Nat)) (m : List (String × Nat)),
      (applyAdds m l₁).bind (fun m₂ => applyAdds m₂ l₂) =
      (applyAdds m l₂).bind (fun m₂ => applyAdds m₂ l₁)
  | [], l₂, m => by
    rcases h : applyAdds m l₂ with _ | m₂ <;> simp [applyAdds, h]
  | (k, v) :: rest, l₂, m => by
    simp only [applyAdds_cons_eq]
    calc ((updateAt k (fun w => w + v) m).bind (fun m₂ => applyAdds m₂ rest)).bind
          (fun m₂ => applyAdds m₂ l₂)
        = (updateAt k (fun w => w + v) m).bind
            (fun m₂ => (applyAdds m₂ rest).bind (fun m₃ => applyAdds m₃ l₂)) :=
          Option.bind_assoc _ _ _
      _ = (updateAt k (fun w => w + v) m).bind
            (fun m₂ => (applyAdds m₂ l₂).bind (fun m₃ => applyAdds m₃ rest)) :=
          Option.bind_congr (fun m₂ _ => applyAdds_chain_comm rest l₂ m₂)
      _ = ((updateAt k (fun w => w + v) m).bind (fun m₂ => applyAdds m₂ l₂)).bind
            (fun m₃ => applyAdds m₃ rest) := (Option.bind_assoc _ _ _).symm
      _ = ((applyAdds m l₂).bind (updateAt k (fun w => w + v))).bind
            (fun m₃ => applyAdds m₃ rest) := by rw [updateAdd_applyAdds_comm l₂ m k v]
      _ = (applyAdds m l₂).bind
            (fun m₂ => (updateAt k (fun w => w + v) m₂).bind (fun m₃ => applyAdds m₃ rest)) :=
          Option.bind_assoc _ _ _

theorem add_file_stats_bind (c : ExtensionContentInfo) (fs₁ fs₂ : FileStats) :
    (c.add_file_stats fs₁).bind (fun c₂ => c₂.add_file_stats fs₂) =
      ((applyAdds c.keyword_occurences fs₁.keyword_occurences).bind
        (fun m => applyAdds m fs₂.keyword_occurences)).map
        (fun m => ⟨c.lines + fs₁.lines + fs₂.lines,
          c.code_lines + fs₁.code_lines + fs₂.code_lines, m⟩) := by
  rcases ha : applyAdds c.keyword_occurences fs₁.keyword_occurences with _ | m₁
  · simp [ExtensionContentInfo.add_file_stats, ha]
  · simp [ExtensionContentInfo.add_file_stats, ha]

theorem add_file_stats_comm (c : ExtensionContentInfo) (fs₁ fs₂ : FileStats) :
    (c.add_file_stats fs₁).bind (fun c₂ => c₂.add_file_stats fs₂) =
    (c.add_file_stats fs₂).bind (fun c₂ => c₂.add_file_stats fs₁) := by
  rw [add_file_stats_bind, add_file_stats_bind,
    applyAdds_chain_comm fs₁.keyword_occurences fs₂.keyword_occurences]
  have h₁ : c.lines + fs₂.lines + fs₁.lines = c.lines + fs₁.lines + fs₂.lines :=
    Nat.add_right_comm _ _ _
  have h₂ : c.code_lines + fs₂.code_lines + fs₁.code_lines =
      c.code_lines + fs₁.code_lines + fs₂.code_lines := Nat.add_right_comm _ _ _
  rw [h₁, h₂]

/-- C5: merging is commutative and order-independent: folding any permutation
of a list of FileStats into an accumulator with add_file_stats produces
identical results, panic branch included. -/
theorem C5_merge_order_independent :
    ∀ (init : ExtensionContentInfo) (l₁ l₂ : List FileStats), l₁.Perm l₂ →
      foldStats init l₁ = foldStats init l₂ := by
  have main : ∀ {l₁ l₂ : List FileStats}, l₁.Perm l₂ →
      ∀ acc : Option ExtensionContentInfo,
        l₁.foldl (fun a fs => a.bind (fun c => c.add_file_stats fs)) acc =
        l₂.foldl (fun a fs => a.bind (fun c => c.add_file_stats fs)) acc := by
    intro l₁ l₂ hp
    induction hp with
    | nil => intro acc; rfl
    | cons x h ih =>
      intro acc
      simp only [List.foldl_cons]
      exact ih _
    | swap x y l =>
      intro acc
      simp only [List.foldl_cons]
      congr 1
      rcases acc with _ | c
      · rfl
      · simp only [Option.some_bind]
        exact add_file_stats_comm c y x
    | trans h₁ h₂ ih₁ ih₂ =>
      intro acc
      rw [ih₁, ih₂]
  intro init l₁ l₂ hp
  exact main hp (some init)

/-- Witness for C5: swapping two concrete FileStats gives the same fold. -/
theorem C5_merge_order_independent_witness :
    foldStats ⟨0, 0, [("k", 0)]⟩ [⟨1, 1, [("k", 2)]⟩, ⟨5, 3, [("k", 4)]⟩] =
      foldStats ⟨0, 0, [("k", 0)]⟩ [⟨5, 3, [("k", 4)]⟩, ⟨1, 1, [("k", 2)]⟩] :=
  C5_merge_order_independent ⟨0, 0, [("k", 0)]⟩ _ _ (List.Perm.swap _ _ _)

/-- C7 (amended): the metrics are produced exactly when the elapsed parse
duration strictly exceeds 1000 milliseconds, and the successful run returns
exactly those metrics; lines_per_sec is derived from the aggregated
content-info line total (faulty files never contribute to it), but
files_per_sec divides the walker relevant-file count, which still includes
the faulty files, by the elapsed duration in seconds. -/
theorem C7_metrics_threshold :
    ∀ (dur relevant : Nat) (cinfo : List (String × ExtensionContentInfo)),
      ((generate_metrics_if_parsing_took_more_than_one_sec dur relevant cinfo).isSome ↔
        1000 < dur) ∧
      (1000 < dur → generate_metrics_if_parsing_took_more_than_one_sec dur relevant cinfo =
        some ⟨(⌊(relevant : ℚ) / ((dur : ℚ) / 1000)⌋).toNat,
              (⌊(((cinfo.map (fun x => x.2.lines)).sum : ℚ)) / ((dur : ℚ) / 1000)⌋).toNat⟩) ∧
      (∀ (exts : List String) (faulty : List FaultyFile)
        (meta : List (String × ExtensionMetadata)) (mopt : Option Metrics)
        (c₁ : List (String × ExtensionContentInfo)) (m₁ : List (String × ExtensionMetadata)),
        run_after_parse exts relevant faulty meta cinfo dur = some (.ok mopt c₁ m₁) →
        mopt = generate_metrics_if_parsing_took_more_than_one_sec dur relevant cinfo) := by
  intro dur relevant cinfo
  refine ⟨?_, ?_, ?_⟩
  · by_cases h : dur ≤ 1000
    · simp [generate_metrics_if_parsing_took_more_than_one_sec, h, Nat.not_lt.mpr h]
    · simp [generate_metrics_if_parsing_took_more_than_one_sec, h, Nat.not_le.mp h]
  · intro h
    simp [generate_metrics_if_parsing_took_more_than_one_sec, Nat.not_le.mpr h,
      Function.comp_def]
  · intro exts faulty meta mopt c₁ m₁ h
    by_cases h₀ : relevant = 0
    · simp only [run_after_parse, if_pos h₀] at h
      cases h
    · by_cases h₁ : faulty.length = relevant
      · simp only [run_after_parse, if_neg h₀, if_pos h₁] at h
        cases h
      · simp only [run_after_parse, if_neg h₀, if_neg h₁] at h
        rcases hrm : remove_faulty_files_stats faulty meta with _ | meta₁
        · simp only [hrm] at h
          cases h
        · simp only [hrm] at h
          cases h
          rfl

/-- Witness for C7 exercising both sides of the threshold. -/
theorem C7_metrics_threshold_witness :
    ((generate_metrics_if_parsing_took_more_than_one_sec 2000 2
        [("rs", ⟨9, 4, []⟩)]).isSome ↔ 1000 < 2000) ∧
    ((generate_metrics_if_parsing_took_more_than_one_sec 1000 2
        [("rs", ⟨9, 4, []⟩)]).isSome ↔ 1000 < 1000) :=
  ⟨(C7_metrics_threshold 2000 2 [("rs", ⟨9, 4, []⟩)]).1,
   (C7_metrics_threshold 1000 2 [("rs", ⟨9, 4, []⟩)]).1⟩

/-- Counterexample for C7 as stated: with 2 relevant files of which 1 is
faulty and 2000ms elapsed, run returns files_per_sec = 1, computed from the
uncorrected relevant-file count 2, whereas the corrected total of 1
non-faulty file would give floor(1 / 2) = 0. -/
theorem C7_metrics_counterexample :
    run_after_parse ["rs"] 2 [⟨"a.rs", "e", 5⟩] [("rs", ⟨2, 11⟩)]
      [("rs", ⟨9, 4, []⟩)] 2000 =
      some (.ok (some ⟨1, 4⟩) [("rs", ⟨9, 4, []⟩)] [("rs", ⟨1, 6⟩)]) ∧
    (⌊((2 : ℚ) - 1) / ((2000 : ℚ) / 1000)⌋).toNat = 0 ∧ (1 : Nat) ≠ 0 := by
  refine ⟨?_, by norm_num, by decide⟩
  have hrm : remove_faulty_files_stats [⟨"a.rs", "e", 5⟩] [("rs", ⟨2, 11⟩)] =
      some [("rs", ⟨1, 6⟩)] := by decide
  have hm : generate_metrics_if_parsing_took_more_than_one_sec 2000 2
      [("rs", ⟨9, 4, []⟩)] = some ⟨1, 4⟩ := by
    simp only [generate_metrics_if_parsing_took_more_than_one_sec]
    norm_num
    decide
  have hpr : remove_extensions_with_0_files [("rs", (⟨9, 4, []⟩ : ExtensionContentInfo))]
      [("rs", (⟨1, 6⟩ : ExtensionMetadata))] =
      ([("rs", ⟨9, 4, []⟩)], [("rs", ⟨1, 6⟩)]) := by decide
  simp only [run_after_parse, hrm, hm, hpr]
  norm_num

theorem ainsert_append {α : Type} {k : String} {v : α} :
    ∀ {m : List (String × α)}, k ∉ keysOf m → ainsert m k v = m ++ [(k, v)]
  | [], _ => rfl
  | (k₀, v₀) :: rest, h => by
    have h₂ : k ∉ keysOf rest := fun hm => h (List.mem_cons_of_mem _ hm)
    have hk : ¬ k₀ = k := fun hh => h (by simp [keysOf, hh])
    simp only [ainsert, if_neg hk, List.cons_append]
    rw [ainsert_append h₂]

theorem foldl_ainsert_eq_map {β : Type} (f : Extension → β) :
    ∀ (cat : List (String × Extension)) (acc : List (String × β)),
      (keysOf cat).Nodup → (∀ k ∈ keysOf cat, k ∉ keysOf acc) →
      cat.foldl (fun m kv => ainsert m kv.1 (f kv.2)) acc =
        acc ++ cat.map (fun kv => (kv.1, f kv.2))
  | [], acc, _, _ => by simp
  | (k₀, e) :: rest, acc, hnd, hdisj => by
    simp only [List.foldl_cons]
    have hk₀ : k₀ ∉ keysOf acc := hdisj k₀ (by simp [keysOf])
    rw [ainsert_append hk₀]
    have hk₀rest : k₀ ∉ keysOf rest := by
      have := hnd
      simp only [keysOf, List.map_cons, List.nodup_cons] at this
      exact this.1
    have hnd₂ : (keysOf rest).Nodup := by
      have := hnd
      simp only [keysOf, List.map_cons, List.nodup_cons] at this
      exact this.2
    have hdisj₂ : ∀ k ∈ keysOf rest, k ∉ keysOf (acc ++ [(k₀, f e)]) := by
      intro k hk hmem
      have hkeys : keysOf (acc ++ [(k₀, f e)]) = keysOf acc ++ [k₀] := by
        simp [keysOf]
      rw [hkeys, List.mem_append] at hmem
      rcases hmem with hmem | hmem
      · exact hdisj k (List.mem_cons_of_mem _ hk) hmem
      · simp only [List.mem_singleton] at hmem
        exact hk₀rest (hmem ▸ hk)
    rw [foldl_ainsert_eq_map f rest _ hnd₂ hdisj₂]
    simp

theorem alookup_map_assoc {β : Type} (f : Extension → β) :
    ∀ {cat : List (String × Extension)} {k : String} {ext : Extension},
      alookup k cat = some ext →
      alookup k (cat.map (fun kv => (kv.1, f kv.2))) = some (f ext)
  | [], k, ext, h => by simp [alookup] at h
  | (k₀, e) :: rest, k, ext, h => by
    by_cases hk : k₀ = k
    · simp only [alookup, if_pos hk, Option.some.injEq] at h
      simp [alookup, hk, h]
    · simp only [alookup, if_neg hk, List.map_cons] at h ⊢
      exact alookup_map_assoc f h

/-- C6 (amended): seeding builds both maps with exactly the Catalog key set
and zero-valued entries, and every mid-run operation (the worker merge, the
walker metadata update, the coordinator faulty correction) preserves the key
sets; the invariant holds only up to the hand-off to rendering, because the
rendering step that run invokes removes zero-file extensions. -/
theorem C6_key_sets_invariant :
    (∀ cat : List (String × Extension), (keysOf cat).Nodup →
      keysOf (make_extension_stats cat) = keysOf cat ∧
      keysOf (make_extension_metadata cat) = keysOf cat ∧
      (∀ k ext, alookup k cat = some ext →
        alookup k (make_extension_stats cat) =
          some (ExtensionContentInfo.ofExtension ext) ∧
        alookup k (make_extension_metadata cat) = some ⟨0, 0⟩)) ∧
    (∀ (cmap : List (String × ExtensionContentInfo)) (k : String) (fs : FileStats)
      (cmap₁ : List (String × ExtensionContentInfo)),
      merge_file_stats cmap k fs = some cmap₁ → keysOf cmap₁ = keysOf cmap) ∧
    (∀ (mmap : List (String × ExtensionMetadata)) (k : String) (b : Nat)
      (mmap₁ : List (String × ExtensionMetadata)),
      record_file_meta mmap k b = some mmap₁ → keysOf mmap₁ = keysOf mmap) ∧
    (∀ (faulty : List FaultyFile) (mmap mmap₁ : List (String × ExtensionMetadata)),
      remove_faulty_files_stats faulty mmap = some mmap₁ → keysOf mmap₁ = keysOf mmap) := by
  refine ⟨?_, ?_, ?_, ?_⟩
  · intro cat hnd
    have hs : make_extension_stats cat =
        cat.map (fun kv => (kv.1, ExtensionContentInfo.ofExtension kv.2)) := by
      rw [make_extension_stats,
        foldl_ainsert_eq_map ExtensionContentInfo.ofExtension cat [] hnd (by simp [keysOf])]
      rfl
    have hm : make_extension_metadata cat =
        cat.map (fun kv => (kv.1, ExtensionMetadata.default)) := by
      rw [make_extension_metadata,
        foldl_ainsert_eq_map (fun _ => ExtensionMetadata.default) cat [] hnd (by simp [keysOf])]
      rfl
    refine ⟨?_, ?_, ?_⟩
    · rw [hs]
      simp [keysOf, List.map_map, Function.comp_def]
    · rw [hm]
      simp [keysOf, List.map_map, Function.comp_def]
    · intro k ext hlk
      constructor
      · rw [hs]
        exact alookup_map_assoc ExtensionContentInfo.ofExtension hlk
      · rw [hm]
        exact alookup_map_assoc (fun _ => ExtensionMetadata.default) hlk
  · intro cmap k fs cmap₁ h
    exact updateAtM_keys h
  · intro mmap k b mmap₁ h
    exact updateAtM_keys h
  · intro faulty mmap mmap₁ h
    exact remove_faulty_keys h

/-- Witness for C6 at a concrete two-extension catalog and concrete mid-run
updates. -/
theorem C6_key_sets_invariant_witness :
    keysOf (make_extension_stats
      [("a", ⟨"a", [], "//", none, none, []⟩), ("b", ⟨"b", [], "#", none, none, []⟩)]) =
      ["a", "b"] ∧
    keysOf (make_extension_metadata
      [("a", ⟨"a", [], "//", none, none, []⟩), ("b", ⟨"b", [], "#", none, none, []⟩)]) =
      ["a", "b"] ∧
    keysOf [("a", (⟨1, 1, []⟩ : ExtensionContentInfo)), ("b", ⟨0, 0, []⟩)] =
      keysOf [("a", (⟨0, 0, []⟩ : ExtensionContentInfo)), ("b", ⟨0, 0, []⟩)] := by
  have h := (C6_key_sets_invariant.1
    [("a", ⟨"a", [], "//", none, none, []⟩), ("b", ⟨"b", [], "#", none, none, []⟩)]
    (by decide))
  refine ⟨h.1, h.2.1, ?_⟩
  exact C6_key_sets_invariant.2.1 [("a", ⟨0, 0, []⟩), ("b", ⟨0, 0, []⟩)] "a" ⟨1, 1, []⟩
    [("a", ⟨1, 1, []⟩), ("b", ⟨0, 0, []⟩)] (by decide)

/-- Counterexample for C6 as stated: with a two-extension catalog seeded to
key set ["a", "b"], a run in which only extension "a" received files prunes
"b" from both maps inside run itself (via the rendering step), so the key
sets do not equal the Catalog key set for the whole lifetime of run. -/
theorem C6_key_sets_counterexample :
    record_file_meta (make_extension_metadata
      [("a", ⟨"a", [], "//", none, none, []⟩), ("b", ⟨"b", [], "#", none, none, []⟩)])
      "a" 4 = some [("a", ⟨1, 4⟩), ("b", ⟨0, 0⟩)] ∧
    run_after_parse [] 1 [] [("a", ⟨1, 4⟩), ("b", ⟨0, 0⟩)]
      [("a", ⟨3, 0, []⟩), ("b", ⟨0, 0, []⟩)] 500 =
      some (.ok none [("a", ⟨3, 0, []⟩)] [("a", ⟨1, 4⟩)]) ∧
    keysOf [("a", (⟨1, 4⟩ : ExtensionMetadata))] ≠
      keysOf (make_extension_metadata
        [("a", ⟨"a", [], "//", none, none, []⟩), ("b", ⟨"b", [], "#", none, none, []⟩)]) := by
  refine ⟨by decide, ?_, by decide⟩
  decide

/-! Support lemmas for the verticals development. -/

theorem getD_set_self {l : List Nat} {i x : Nat} (h : i < l.length) :
    (l.set i x).getD i 0 = x := by
  rw [List.getD_eq_getElem _ _ (by simpa using h)]
  exact List.getElem_set_self _

theorem getD_set_ne {l : List Nat} {i j x : Nat} (h : i ≠ j) :
    (l.set i x).getD j 0 = l.getD j 0 := by
  by_cases hj : j < l.length
  · rw [List.getD_eq_getElem _ _ (by simpa using hj), List.getD_eq_getElem _ _ hj]
    exact List.getElem_set_ne h _
  · rw [List.getD_eq_default _ _ (by simpa using Nat.not_lt.mp hj),
      List.getD_eq_default _ _ (Nat.not_lt.mp hj)]

theorem sum_set {l : List Nat} : ∀ {i : Nat} (x : Nat), i < l.length →
    (l.set i x).sum + l.getD i 0 = l.sum + x := by
  induction l with
  | nil => intro i x h; simp at h
  | cons a t ih =>
    intro i x h
    cases i with
    | zero => simp [List.getD_cons_zero]; omega
    | succ n =>
      simp only [List.set, List.sum_cons, List.getD_cons_succ]
      have := ih x (Nat.lt_of_succ_lt_succ h)
      omega

theorem resortSV_perm (vals sv : List Nat) : (resortSV vals sv).Perm sv :=
  List.mergeSort_perm sv _

theorem resortSV_sorted (vals sv : List Nat) : sortedSV vals (resortSV vals sv) := by
  have h := @List.sorted_mergeSort Nat
    (fun i j => Nat.ble (vals.getD j 0) (vals.getD i 0))
    (fun a b c hab hbc => by
      simp only [Nat.ble_eq] at hab hbc ⊢
      exact le_trans hbc hab)
    (fun a b => by
      simp only [Bool.or_eq_true, Nat.ble_eq]
      exact Nat.le_total (vals.getD b 0) (vals.getD a 0))
    sv
  exact h.imp (fun hab => by simpa [Nat.ble_eq] using hab)

theorem perm_range_length {vals sv : List Nat} (h : sv.Perm (List.range vals.length)) :
    sv.length = vals.length :=
  h.length_eq.trans (List.length_range _)

theorem perm_range_nodup {vals sv : List Nat} (h : sv.Perm (List.range vals.length)) :
    sv.Nodup :=
  h.nodup_iff.mpr (List.nodup_range _)

theorem perm_range_mem {vals sv : List Nat} (h : sv.Perm (List.range vals.length))
    {i : Nat} (hi : i ∈ sv) : i < vals.length :=
  List.mem_range.mp (h.mem_iff.mp hi)

theorem perm_range_getD_lt {vals sv : List Nat} (h : sv.Perm (List.range vals.length))
    {j : Nat} (hj : j < sv.length) : sv.getD j 0 < vals.length := by
  refine perm_range_mem h ?_
  rw [List.getD_eq_getElem _ _ hj]
  exact List.getElem_mem _

theorem map_getD_self (l : List Nat) : valsAt l (List.range l.length) = l := by
  apply List.ext_getElem
  · simp [valsAt]
  · intro i h₁ h₂
    simp only [valsAt, List.getElem_map, List.getElem_range]
    exact List.getD_eq_getElem l 0 h₂

theorem valsAt_perm {vals sv : List Nat} (h : sv.Perm (List.range vals.length)) :
    (valsAt vals sv).Perm vals := by
  have h₂ := h.map (fun i => vals.getD i 0)
  rw [show (List.range vals.length).map (fun i => vals.getD i 0) =
    valsAt vals (List.range vals.length) from rfl, map_getD_self] at h₂
  exact h₂

theorem nodup_getD_ne {l : List Nat} (h : l.Nodup) {i j : Nat} (hi : i < l.length)
    (hj : j < l.length) (hij : i ≠ j) : l.getD i 0 ≠ l.getD j 0 := by
  rw [List.getD_eq_getElem _ _ hi, List.getD_eq_getElem _ _ hj]
  intro he
  exact hij ((List.Nodup.getElem_inj_iff h).mp he)

theorem sortedSV_getD_le {vals sv : List Nat} (h : sortedSV vals sv) {i j : Nat}
    (hij : i < j) (hj : j < sv.length) :
    vals.getD (sv.getD j 0) 0 ≤ vals.getD (sv.getD i 0) 0 := by
  have h₂ := List.pairwise_iff_getElem.mp h i j (lt_trans hij hj) hj hij
  rw [List.getD_eq_getElem _ _ (lt_trans hij hj), List.getD_eq_getElem _ _ hj]
  exact h₂

theorem countLeadingEq_le (vals : List Nat) (m : Nat) :
    ∀ (sv : List Nat), countLeadingEq vals m sv ≤ sv.length
  | [] => by simp [countLeadingEq]
  | i :: rest => by
    by_cases h : vals.getD i 0 = m
    · simp only [countLeadingEq, if_pos h, List.length_cons]
      exact Nat.succ_le_succ (countLeadingEq_le vals m rest)
    · simp only [countLeadingEq, if_neg h, List.length_cons]
      exact Nat.zero_le _

theorem countLeadingEq_eq (vals : List Nat) (m : Nat) :
    ∀ (sv : List Nat) (j : Nat), j < countLeadingEq vals m sv →
      vals.getD (sv.getD j 0) 0 = m
  | [], j, h => by simp [countLeadingEq] at h
  | i :: rest, j, h => by
    by_cases hv : vals.getD i 0 = m
    · cases j with
      | zero => simpa [List.getD_cons_zero] using hv
      | succ n =>
        simp only [countLeadingEq, if_pos hv] at h
        rw [List.getD_cons_succ]
        exact countLeadingEq_eq vals m rest n (Nat.lt_of_succ_lt_succ h)
    · simp only [countLeadingEq, if_neg hv] at h
      exact absurd h (Nat.not_lt_zero j)

theorem countLeadingEq_ne (vals : List Nat) (m : Nat) :
    ∀ (sv : List Nat), countLeadingEq vals m sv < sv.length →
      vals.getD (sv.getD (countLeadingEq vals m sv) 0) 0 ≠ m
  | [], h => by simp at h
  | i :: rest, h => by
    by_cases hv : vals.getD i 0 = m
    · simp only [countLeadingEq, if_pos hv, List.length_cons] at h ⊢
      rw [List.getD_cons_succ]
      exact countLeadingEq_ne vals m rest (Nat.lt_of_succ_lt_succ h)
    · simp only [countLeadingEq, if_neg hv, List.getD_cons_zero]
      exact hv

theorem sortedSV_set_notmem {vals sv : List Nat} {i x : Nat} (h : sortedSV vals sv)
    (hi : i ∉ sv) : sortedSV (vals.set i x) sv := by
  refine List.Pairwise.imp_of_mem ?_ h
  intro a b ha hb hab
  have hia : i ≠ a := fun he => hi (by rw [he]; exact ha)
  have hib : i ≠ b := fun he => hi (by rw [he]; exact hb)
  rw [getD_set_ne hia, getD_set_ne hib]
  exact hab

theorem sortedSV_set_head {vals : List Nat} {i₀ x : Nat} {rest : List Nat}
    (hnotmem : i₀ ∉ rest) (hi₀ : i₀ < vals.length)
    (hsor : sortedSV vals rest) (hx : ∀ j ∈ rest, vals.getD j 0 ≤ x) :
    sortedSV (vals.set i₀ x) (i₀ :: rest) := by
  rw [sortedSV, List.pairwise_cons]
  constructor
  · intro j hj
    have hne : i₀ ≠ j := fun he => hnotmem (by rw [he]; exact hj)
    rw [getD_set_self hi₀, getD_set_ne hne]
    exact hx j hj
  · exact sortedSV_set_notmem hsor hnotmem

theorem sv_decomp {vals sv : List Nat} (hperm : sv.Perm (List.range vals.length))
    (hlen : 2 ≤ vals.length) : ∃ i₀ i₁ tl, sv = i₀ :: i₁ :: tl := by
  have hl : sv.length = vals.length := perm_range_length hperm
  rcases sv with _ | ⟨i₀, _ | ⟨i₁, tl⟩⟩
  · rw [← hl] at hlen
    simp at hlen
  · rw [← hl] at hlen
    simp at hlen
  · exact ⟨i₀, i₁, tl, rfl⟩

theorem sorted_head_bound {vals : List Nat} {i₀ : Nat} {rest : List Nat}
    (hsor : sortedSV vals (i₀ :: rest)) :
    ∀ j ∈ rest, vals.getD j 0 ≤ vals.getD i₀ 0 := by
  rw [sortedSV, List.pairwise_cons] at hsor
  exact hsor.1

theorem sorted_tail {vals : List Nat} {i₀ : Nat} {rest : List Nat}
    (hsor : sortedSV vals (i₀ :: rest)) : sortedSV vals rest := by
  rw [sortedSV, List.pairwise_cons] at hsor
  exact hsor.2

theorem valsAt_sum {vals sv : List Nat} (hperm : sv.Perm (List.range vals.length)) :
    (valsAt vals sv).sum = vals.sum :=
  (valsAt_perm hperm).sum_eq

theorem valsAt_countP {vals sv : List Nat} (hperm : sv.Perm (List.range vals.length)) :
    (valsAt vals sv).countP (fun v => v != 0) = vals.countP (fun v => v != 0) :=
  (valsAt_perm hperm).countP_eq _

theorem tail_zero_of_second_zero {vals : List Nat} {i₀ i₁ : Nat} {tl : List Nat}
    (hsor : sortedSV vals (i₀ :: i₁ :: tl)) (h0 : vals.getD i₁ 0 = 0) :
    ∀ c ∈ tl, vals.getD c 0 = 0 := by
  intro c hc
  have := sorted_head_bound (sorted_tail hsor) c hc
  omega

theorem countP_le_one_of_tail_zero :
    ∀ (l : List Nat), (∀ x ∈ l.drop 1, x = 0) → l.countP (fun v => v != 0) ≤ 1
  | [], _ => by simp
  | a :: t, h => by
    have ht : t.countP (fun v => v != 0) = 0 := by
      rw [List.countP_eq_zero]
      intro x hx
      have hx0 : x = 0 := h x (by simpa using hx)
      simp [hx0]
    rw [List.countP_cons, ht]
    split <;> omega

theorem second_pos {vals sv : List Nat} (hperm : sv.Perm (List.range vals.length))
    (hsor : sortedSV vals sv) (htwo : TwoPos vals) (hlen : 2 ≤ vals.length) :
    1 ≤ svGet vals sv 1 := by
  obtain ⟨i₀, i₁, tl, rfl⟩ := sv_decomp hperm hlen
  by_contra hc
  have h0 : vals.getD i₁ 0 = 0 := by
    simp only [svGet, List.getD_cons_succ, List.getD_cons_zero] at hc
    omega
  have hcount := valsAt_countP hperm
  rw [TwoPos, ← hcount] at htwo
  have htail : ∀ x ∈ (valsAt vals (i₀ :: i₁ :: tl)).drop 1, x = 0 := by
    intro x hx
    have hx₂ : x ∈ vals.getD i₁ 0 :: (valsAt vals tl) := hx
    rcases List.mem_cons.mp hx₂ with rfl | hx₃
    · exact h0
    · obtain ⟨c, hc₂, rfl⟩ := List.mem_map.mp
        (show x ∈ tl.map (fun i => vals.getD i 0) from hx₃)
      exact tail_zero_of_second_zero hsor h0 c hc₂
  have := countP_le_one_of_tail_zero _ htail
  omega

theorem head_pos_of_sum {vals sv : List Nat} (hperm : sv.Perm (List.range vals.length))
    (hsor : sortedSV vals sv) (hsum : 1 ≤ vals.sum) (hlen : 1 ≤ vals.length) :
    1 ≤ svGet vals sv 0 := by
  rcases sv with _ | ⟨i₀, rest⟩
  · have := perm_range_length hperm
    simp at this
    omega
  · by_contra hc
    have h0 : vals.getD i₀ 0 = 0 := by
      simp only [svGet, List.getD_cons_zero] at hc
      omega
    have hall : ∀ x ∈ valsAt vals (i₀ :: rest), x = 0 := by
      intro x hx
      simp only [valsAt, List.map_cons, List.mem_cons] at hx
      rcases hx with rfl | hx
      · exact h0
      · obtain ⟨c, hc₂, rfl⟩ := List.mem_map.mp hx
        have := sorted_head_bound hsor c hc₂
        omega
    have := valsAt_sum hperm
    rw [List.sum_eq_zero hall] at this
    omega

theorem sum_eq_head_of_second_zero {vals sv : List Nat}
    (hperm : sv.Perm (List.range vals.length)) (hsor : sortedSV vals sv)
    (hlen : 2 ≤ vals.length) (h0 : svGet vals sv 1 = 0) :
    vals.sum = svGet vals sv 0 := by
  obtain ⟨i₀, i₁, tl, rfl⟩ := sv_decomp hperm hlen
  simp only [svGet, List.getD_cons_succ, List.getD_cons_zero] at h0 ⊢
  have hsum := valsAt_sum hperm
  have : valsAt vals (i₀ :: i₁ :: tl) =
      vals.getD i₀ 0 :: vals.getD i₁ 0 :: (valsAt vals tl) := rfl
  rw [this, List.sum_cons, List.sum_cons, h0] at hsum
  have hzero : (valsAt vals tl).sum = 0 := by
    refine List.sum_eq_zero ?_
    intro x hx
    obtain ⟨c, hc₂, rfl⟩ := List.mem_map.mp
      (show x ∈ tl.map (fun i => vals.getD i 0) from hx)
    exact tail_zero_of_second_zero hsor h0 c hc₂
  rw [hzero] at hsum
  omega

theorem countP_set_ge {x : Nat} (hnew : x ≠ 0) :
    ∀ (vals : List Nat) (i : Nat),
      vals.countP (fun v => v != 0) ≤ (vals.set i x).countP (fun v => v != 0)
  | [], _ => by simp
  | a :: t, 0 => by
    simp only [List.set, List.countP_cons]
    have h₁ : (fun v => v != 0) x = true := by simpa using hnew
    rcases h : (fun v => v != 0) a with _ | _ <;> simp [h₁, h]
  | a :: t, i + 1 => by
    simp only [List.set, List.countP_cons]
    have := countP_set_ge hnew t i
    omega

theorem overStep_spec {vals sv : List Nat} (hlen : 2 ≤ vals.length)
    (hperm : sv.Perm (List.range vals.length)) (hsor : sortedSV vals sv)
    (hsum : 51 ≤ vals.sum) :
    (overStep vals sv).1.length = vals.length ∧
    (overStep vals sv).2.Perm (List.range vals.length) ∧
    sortedSV (overStep vals sv).1 (overStep vals sv).2 ∧
    (overStep vals sv).1.sum + 1 = vals.sum ∧
    (∀ i, vals.getD i 0 = 0 → (overStep vals sv).1.getD i 0 = 0) := by
  obtain ⟨i₀, i₁, tl, rfl⟩ := sv_decomp hperm hlen
  have hnd : (i₀ :: i₁ :: tl).Nodup := perm_range_nodup hperm
  have hi₀ : i₀ < vals.length := perm_range_mem hperm (List.mem_cons_self _ _)
  have hi₁ : i₁ < vals.length := perm_range_mem hperm (by simp)
  have hnotmem : i₀ ∉ i₁ :: tl := (List.nodup_cons.mp hnd).1
  have hne01 : i₀ ≠ i₁ := fun he => hnotmem (by rw [he]; exact List.mem_cons_self _ _)
  have hv₁₀ : vals.getD i₁ 0 ≤ vals.getD i₀ 0 :=
    sorted_head_bound hsor i₁ (List.mem_cons_self _ _)
  by_cases hgt : svGet vals (i₀ :: i₁ :: tl) 0 > svGet vals (i₀ :: i₁ :: tl) 1 + 3
  · have hv₀ : vals.getD i₁ 0 + 3 < vals.getD i₀ 0 := hgt
    have hstep : overStep vals (i₀ :: i₁ :: tl) =
        (vals.set i₀ (vals.getD i₀ 0 - 1), i₀ :: i₁ :: tl) := by
      simp only [overStep, if_pos hgt]
      rfl
    rw [hstep]
    dsimp only
    refine ⟨List.length_set _ _ _, by simpa using hperm, ?_, ?_, ?_⟩
    · refine sortedSV_set_head hnotmem hi₀ (sorted_tail hsor) ?_
      intro j hj
      rcases List.mem_cons.mp hj with rfl | hj₂
      · omega
      · have := sorted_head_bound (sorted_tail hsor) j hj₂
        omega
    · have := sum_set (l := vals) (vals.getD i₀ 0 - 1) hi₀
      omega
    · intro i hzi
      have hne : i₀ ≠ i := by
        intro he
        rw [he, hzi] at hv₀
        omega
      rw [getD_set_ne hne]
      exact hzi
  · have hle : vals.getD i₀ 0 ≤ vals.getD i₁ 0 + 3 := Nat.not_lt.mp hgt
    have hv₁pos : 1 ≤ vals.getD i₁ 0 := by
      by_contra hc
      have h0 : svGet vals (i₀ :: i₁ :: tl) 1 = 0 := by
        simp only [svGet, List.getD_cons_succ, List.getD_cons_zero]
        omega
      have hhead := sum_eq_head_of_second_zero hperm hsor hlen h0
      simp only [svGet, List.getD_cons_succ, List.getD_cons_zero] at h0 hhead
      omega
    have hstep : overStep vals (i₀ :: i₁ :: tl) =
        (vals.set i₁ (vals.getD i₁ 0 - 1),
         if (i₀ :: i₁ :: tl).length > 2 then
           resortSV (vals.set i₁ (vals.getD i₁ 0 - 1)) (i₀ :: i₁ :: tl)
         else i₀ :: i₁ :: tl) := by
      simp only [overStep, if_neg hgt]
      rfl
    rw [hstep]
    dsimp only
    refine ⟨List.length_set _ _ _, ?_, ?_, ?_, ?_⟩
    · by_cases h2 : (i₀ :: i₁ :: tl).length > 2
      · rw [if_pos h2]
        exact (resortSV_perm _ _).trans hperm
      · rw [if_neg h2]
        exact hperm
    · by_cases h2 : (i₀ :: i₁ :: tl).length > 2
      · rw [if_pos h2]
        exact resortSV_sorted _ _
      · rw [if_neg h2]
        have htl : tl = [] := by
          simp only [List.length_cons, gt_iff_lt] at h2
          have : tl.length = 0 := by omega
          exact List.length_eq_zero.mp this
        subst htl
        rw [sortedSV, List.pairwise_cons]
        constructor
        · intro j hj
          rcases List.mem_cons.mp hj with rfl | hj₂
          · rw [getD_set_self hi₁, getD_set_ne (Ne.symm hne01)]
            omega
          · simp at hj₂
        · rw [List.pairwise_cons]
          exact ⟨fun b hb => by simp at hb, List.Pairwise.nil⟩
    · have := sum_set (l := vals) (vals.getD i₁ 0 - 1) hi₁
      omega
    · intro i hzi
      have hne : i₁ ≠ i := by
        intro he
        rw [he, hzi] at hv₁pos
        omega
      rw [getD_set_ne hne]
      exact hzi

theorem underStep_spec {vals sv : List Nat} (hlen : 2 ≤ vals.length)
    (hperm : sv.Perm (List.range vals.length)) (hsor : sortedSV vals sv)
    (htwo : TwoPos vals) :
    (underStep vals sv).1.length = vals.length ∧
    (underStep vals sv).2.Perm (List.range vals.length) ∧
    sortedSV (underStep vals sv).1 (underStep vals sv).2 ∧
    (underStep vals sv).1.sum = vals.sum + 1 ∧
    TwoPos (underStep vals sv).1 ∧
    (∀ i, vals.getD i 0 = 0 → (underStep vals sv).1.getD i 0 = 0) := by
  obtain ⟨i₀, i₁, tl, rfl⟩ := sv_decomp hperm hlen
  have hnd : (i₀ :: i₁ :: tl).Nodup := perm_range_nodup hperm
  have hi₀ : i₀ < vals.length := perm_range_mem hperm (List.mem_cons_self _ _)
  have hi₁ : i₁ < vals.length := perm_range_mem hperm (by simp)
  have hnotmem : i₀ ∉ i₁ :: tl := (List.nodup_cons.mp hnd).1
  have hne01 : i₀ ≠ i₁ := fun he => hnotmem (by rw [he]; exact List.mem_cons_self _ _)
  have hv₁₀ : vals.getD i₁ 0 ≤ vals.getD i₀ 0 :=
    sorted_head_bound hsor i₁ (List.mem_cons_self _ _)
  have hv₁pos : 1 ≤ vals.getD i₁ 0 := second_pos hperm hsor htwo hlen
  by_cases hgt : svGet vals (i₀ :: i₁ :: tl) 0 > svGet vals (i₀ :: i₁ :: tl) 1 + 5
  · have hv₀ : vals.getD i₁ 0 + 5 < vals.getD i₀ 0 := hgt
    have hstep : underStep vals (i₀ :: i₁ :: tl) =
        (vals.set i₁ (vals.getD i₁ 0 + 1),
         if (i₀ :: i₁ :: tl).length > 2 then
           resortSV (vals.set i₁ (vals.getD i₁ 0 + 1)) (i₀ :: i₁ :: tl)
         else i₀ :: i₁ :: tl) := by
      simp only [underStep, if_pos hgt]
      rfl
    rw [hstep]
    dsimp only
    refine ⟨List.length_set _ _ _, ?_, ?_, ?_, ?_, ?_⟩
    · by_cases h2 : (i₀ :: i₁ :: tl).length > 2
      · rw [if_pos h2]
        exact (resortSV_perm _ _).trans hperm
      · rw [if_neg h2]
        exact hperm
    · by_cases h2 : (i₀ :: i₁ :: tl).length > 2
      · rw [if_pos h2]
        exact resortSV_sorted _ _
      · rw [if_neg h2]
        have htl : tl = [] := by
          simp only [List.length_cons, gt_iff_lt] at h2
          have : tl.length = 0 := by omega
          exact List.length_eq_zero.mp this
        subst htl
        rw [sortedSV, List.pairwise_cons]
        constructor
        · intro j hj
          rcases List.mem_cons.mp hj with rfl | hj₂
          · rw [getD_set_self hi₁, getD_set_ne (Ne.symm hne01)]
            omega
          · simp at hj₂
        · rw [List.pairwise_cons]
          exact ⟨fun b hb => by simp at hb, List.Pairwise.nil⟩
    · have := sum_set (l := vals) (vals.getD i₁ 0 + 1) hi₁
      omega
    · exact le_trans htwo (countP_set_ge (by omega) vals i₁)
    · intro i hzi
      have hne : i₁ ≠ i := by
        intro he
        rw [he, hzi] at hv₁pos
        omega
      rw [getD_set_ne hne]
      exact hzi
  · have hstep : underStep vals (i₀ :: i₁ :: tl) =
        (vals.set i₀ (vals.getD i₀ 0 + 1), i₀ :: i₁ :: tl) := by
      simp only [underStep, if_neg hgt]
      rfl
    rw [hstep]
    dsimp only
    have hv₀pos : 1 ≤ vals.getD i₀ 0 := le_trans hv₁pos hv₁₀
    refine ⟨List.length_set _ _ _, by simpa using hperm, ?_, ?_, ?_, ?_⟩
    · refine sortedSV_set_head hnotmem hi₀ (sorted_tail hsor) ?_
      intro j hj
      rcases List.mem_cons.mp hj with rfl | hj₂
      · omega
      · have := sorted_head_bound (sorted_tail hsor) j hj₂
        omega
    · have := sum_set (l := vals) (vals.getD i₀ 0 + 1) hi₀
      omega
    · exact le_trans htwo (countP_set_ge (by omega) vals i₀)
    · intro i hzi
      have hne : i₀ ≠ i := by
        intro he
        rw [he, hzi] at hv₀pos
        omega
      rw [getD_set_ne hne]
      exact hzi

theorem normLoop_over_spec :
    ∀ (k : Nat) (vals sv : List Nat), 2 ≤ vals.length →
      sv.Perm (List.range vals.length) → sortedSV vals sv →
      vals.sum = 50 + k →
      (normLoop true k (vals, sv)).1.sum = 50 ∧
      (normLoop true k (vals, sv)).1.length = vals.length ∧
      (∀ i, vals.getD i 0 = 0 → (normLoop true k (vals, sv)).1.getD i 0 = 0)
  | 0, vals, sv, _, _, _, hsum => by
    refine ⟨?_, rfl, fun i h => h⟩
    show vals.sum = 50
    omega
  | k + 1, vals, sv, hlen, hperm, hsor, hsum => by
    have hs51 : 51 ≤ vals.sum := by omega
    obtain ⟨hl, hp, hso, hsm, hz⟩ := overStep_spec hlen hperm hsor hs51
    have hstep : normLoop true (k + 1) (vals, sv) =
        normLoop true k ((overStep vals sv).1, (overStep vals sv).2) := by
      simp [normLoop]
    rw [hstep]
    have hlen₂ : 2 ≤ (overStep vals sv).1.length := by rw [hl]; exact hlen
    have hperm₂ : (overStep vals sv).2.Perm (List.range (overStep vals sv).1.length) := by
      rw [hl]; exact hp
    have hsum₂ : (overStep vals sv).1.sum = 50 + k := by omega
    obtain ⟨r1, r2, r3⟩ := normLoop_over_spec k (overStep vals sv).1 (overStep vals sv).2
      hlen₂ hperm₂ hso hsum₂
    exact ⟨r1, r2.trans hl, fun i h => r3 i (hz i h)⟩

theorem normLoop_under_spec :
    ∀ (k : Nat) (vals sv : List Nat), 2 ≤ vals.length →
      sv.Perm (List.range vals.length) → sortedSV vals sv → TwoPos vals →
      vals.sum + k = 50 →
      (normLoop false k (vals, sv)).1.sum = 50 ∧
      (normLoop false k (vals, sv)).1.length = vals.length ∧
      (∀ i, vals.getD i 0 = 0 → (normLoop false k (vals, sv)).1.getD i 0 = 0)
  | 0, vals, sv, _, _, _, _, hsum => by
    refine ⟨?_, rfl, fun i h => h⟩
    show vals.sum = 50
    omega
  | k + 1, vals, sv, hlen, hperm, hsor, htwo, hsum => by
    obtain ⟨hl, hp, hso, hsm, htw, hz⟩ := underStep_spec hlen hperm hsor htwo
    have hstep : normLoop false (k + 1) (vals, sv) =
        normLoop false k ((underStep vals sv).1, (underStep vals sv).2) := by
      simp [normLoop]
    rw [hstep]
    have hlen₂ : 2 ≤ (underStep vals sv).1.length := by rw [hl]; exact hlen
    have hperm₂ : (underStep vals sv).2.Perm (List.range (underStep vals sv).1.length) := by
      rw [hl]; exact hp
    have hsum₂ : (underStep vals sv).1.sum + k = 50 := by omega
    obtain ⟨r1, r2, r3⟩ := normLoop_under_spec k (underStep vals sv).1 (underStep vals sv).2
      hlen₂ hperm₂ hso htw hsum₂
    exact ⟨r1, r2.trans hl, fun i h => r3 i (hz i h)⟩

theorem tieAdjust_spec (b : Bool) (sv : List Nat) :
    ∀ (cnt pos : Nat) (vals : List Nat) (mval : Nat),
      sv.Nodup → pos + cnt ≤ sv.length →
      (∀ j, pos ≤ j → j < pos + cnt → sv.getD j 0 < vals.length ∧
        vals.getD (sv.getD j 0) 0 = mval) →
      1 ≤ mval →
      (tieAdjust b sv pos cnt vals).length = vals.length ∧
      (b = true → (tieAdjust b sv pos cnt vals).sum + cnt = vals.sum) ∧
      (b = false → (tieAdjust b sv pos cnt vals).sum = vals.sum + cnt) ∧
      (∀ idx, (∀ j, pos ≤ j → j < pos + cnt → sv.getD j 0 ≠ idx) →
        (tieAdjust b sv pos cnt vals).getD idx 0 = vals.getD idx 0) ∧
      (b = true → ∀ j, pos ≤ j → j < pos + cnt →
        (tieAdjust b sv pos cnt vals).getD (sv.getD j 0) 0 = mval - 1) ∧
      (b = false → ∀ j, pos ≤ j → j < pos + cnt →
        (tieAdjust b sv pos cnt vals).getD (sv.getD j 0) 0 = mval + 1) ∧
      (b = false → vals.countP (fun v => v != 0) ≤
        (tieAdjust b sv pos cnt vals).countP (fun v => v != 0))
  | 0, pos, vals, mval, _, _, _, _ => by
    refine ⟨rfl, fun _ => ?_, fun _ => ?_, fun idx _ => rfl,
      fun _ j h₁ h₂ => by omega, fun _ j h₁ h₂ => by omega, fun _ => le_refl _⟩
    · show vals.sum + 0 = vals.sum
      omega
    · show vals.sum = vals.sum + 0
      omega
  | cnt + 1, pos, vals, mval, hnd, hle, hval, hm => by
    have hpos : pos < sv.length := by omega
    obtain ⟨hib, hiv⟩ := hval pos (le_refl _) (by omega)
    cases b with
    | true =>
      have hunf : tieAdjust true sv pos (cnt + 1) vals =
          tieAdjust true sv (pos + 1) cnt (vals.set (sv.getD pos 0) (mval - 1)) := by
        simp only [tieAdjust, svSet, svGet, if_true]
        rw [show vals.getD (sv.getD pos 0) 0 - 1 = mval - 1 from by rw [hiv]]
      rw [hunf]
      set vals₁ := vals.set (sv.getD pos 0) (mval - 1) with hv₁
      have hlen₁ : vals₁.length = vals.length := List.length_set _ _ _
      have hval₁ : ∀ j, pos + 1 ≤ j → j < pos + 1 + cnt → sv.getD j 0 < vals₁.length ∧
          vals₁.getD (sv.getD j 0) 0 = mval := by
        intro j h₁ h₂
        have hj : j < sv.length := by omega
        have hne : sv.getD pos 0 ≠ sv.getD j 0 :=
          nodup_getD_ne hnd hpos hj (by omega)
        obtain ⟨hb₂, hv₂⟩ := hval j (by omega) (by omega)
        exact ⟨by rw [hlen₁]; exact hb₂, by rw [hv₁, getD_set_ne hne]; exact hv₂⟩
      obtain ⟨r1, r2, r3, r4, r5, r6, r7⟩ := tieAdjust_spec true sv cnt (pos + 1) vals₁ mval
        hnd (by omega) hval₁ hm
      have hsum₁ := sum_set (l := vals) (mval - 1) hib
      rw [hiv, ← hv₁] at hsum₁
      refine ⟨r1.trans hlen₁, ?_, ?_, ?_, ?_, ?_, ?_⟩
      · intro _
        have h₂ := r2 rfl
        omega
      · intro hb
        exact absurd hb (by decide)
      · intro idx hnotin
        have h₁ : (tieAdjust true sv (pos + 1) cnt vals₁).getD idx 0 = vals₁.getD idx 0 :=
          r4 idx (fun j hj₁ hj₂ => hnotin j (by omega) (by omega))
        rw [h₁, hv₁, getD_set_ne (hnotin pos (le_refl _) (by omega))]
      · intro _ j h₁ h₂
        rcases Nat.eq_or_lt_of_le h₁ with heq | hlt
        · subst heq
          have h₃ : (tieAdjust true sv (pos + 1) cnt vals₁).getD (sv.getD pos 0) 0 =
              vals₁.getD (sv.getD pos 0) 0 := by
            refine r4 (sv.getD pos 0) ?_
            intro j₂ hj₂ hj₃
            exact nodup_getD_ne hnd (by omega) hpos (by omega)
          rw [h₃, hv₁, getD_set_self hib]
        · exact r5 rfl j hlt (by omega)
      · intro hb
        exact absurd hb (by decide)
      · intro hb
        exact absurd hb (by decide)
    | false =>
      have hunf : tieAdjust false sv pos (cnt + 1) vals =
          tieAdjust false sv (pos + 1) cnt (vals.set (sv.getD pos 0) (mval + 1)) := by
        simp only [tieAdjust, svSet, svGet, Bool.false_eq_true, if_false]
        rw [show vals.getD (sv.getD pos 0) 0 + 1 = mval + 1 from by rw [hiv]]
      rw [hunf]
      set vals₁ := vals.set (sv.getD pos 0) (mval + 1) with hv₁
      have hlen₁ : vals₁.length = vals.length := List.length_set _ _ _
      have hval₁ : ∀ j, pos + 1 ≤ j → j < pos + 1 + cnt → sv.getD j 0 < vals₁.length ∧
          vals₁.getD (sv.getD j 0) 0 = mval := by
        intro j h₁ h₂
        have hj : j < sv.length := by omega
        have hne : sv.getD pos 0 ≠ sv.getD j 0 :=
          nodup_getD_ne hnd hpos hj (by omega)
        obtain ⟨hb₂, hv₂⟩ := hval j (by omega) (by omega)
        exact ⟨by rw [hlen₁]; exact hb₂, by rw [hv₁, getD_set_ne hne]; exact hv₂⟩
      obtain ⟨r1, r2, r3, r4, r5, r6, r7⟩ := tieAdjust_spec false sv cnt (pos + 1) vals₁ mval
        hnd (by omega) hval₁ hm
      have hsum₁ := sum_set (l := vals) (mval + 1) hib
      rw [hiv, ← hv₁] at hsum₁
      refine ⟨r1.trans hlen₁, ?_, ?_, ?_, ?_, ?_, ?_⟩
      · intro hb
        exact absurd hb (by decide)
      · intro _
        have h₂ := r3 rfl
        omega
      · intro idx hnotin
        have h₁ : (tieAdjust false sv (pos + 1) cnt vals₁).getD idx 0 = vals₁.getD idx 0 :=
          r4 idx (fun j hj₁ hj₂ => hnotin j (by omega) (by omega))
        rw [h₁, hv₁, getD_set_ne (hnotin pos (le_refl _) (by omega))]
      · intro hb
        exact absurd hb (by decide)
      · intro _ j h₁ h₂
        rcases Nat.eq_or_lt_of_le h₁ with heq | hlt
        · subst heq
          have h₃ : (tieAdjust false sv (pos + 1) cnt vals₁).getD (sv.getD pos 0) 0 =
              vals₁.getD (sv.getD pos 0) 0 := by
            refine r4 (sv.getD pos 0) ?_
            intro j₂ hj₂ hj₃
            exact nodup_getD_ne hnd (by omega) hpos (by omega)
          rw [h₃, hv₁, getD_set_self hib]
        · exact r6 rfl j hlt (by omega)
      · intro _
        refine le_trans ?_ (r7 rfl)
        rw [hv₁]
        exact countP_set_ge (by omega) vals _

theorem valsAt_getD {vals sv : List Nat} {p : Nat} (hp : p < sv.length) :
    (valsAt vals sv).getD p 0 = vals.getD (sv.getD p 0) 0 := by
  have hlen : (valsAt vals sv).length = sv.length := List.length_map _ _
  rw [List.getD_eq_getElem _ _ (by rw [hlen]; exact hp), List.getD_eq_getElem _ _ hp]
  simp [valsAt]

theorem sum_le_tie_of_max_one {vals sv : List Nat}
    (hperm : sv.Perm (List.range vals.length)) (hsor : sortedSV vals sv)
    (hlen : 1 ≤ vals.length) (hone : svGet vals sv 0 = 1) :
    vals.sum ≤ countLeadingEq vals 1 sv := by
  have hsvlen : sv.length = vals.length := perm_range_length hperm
  set w := valsAt vals sv with hw
  have hwlen : w.length = sv.length := List.length_map _ _
  set t := countLeadingEq vals 1 sv with ht
  have htle : t ≤ sv.length := countLeadingEq_le vals 1 sv
  have hall : ∀ x ∈ w, x ≤ 1 := by
    intro x hx
    obtain ⟨c, hc, rfl⟩ := List.mem_map.mp
      (show x ∈ sv.map (fun i => vals.getD i 0) from hx)
    obtain ⟨p, hp, rfl⟩ := List.mem_iff_getElem.mp hc
    rcases Nat.eq_zero_or_pos p with rfl | hppos
    · rw [← List.getD_eq_getElem sv 0 hp]
      exact le_of_eq hone
    · rw [← List.getD_eq_getElem sv 0 hp]
      calc vals.getD (sv.getD p 0) 0 ≤ vals.getD (sv.getD 0 0) 0 :=
            sortedSV_getD_le hsor hppos hp
        _ = 1 := hone
  have htpos : 1 ≤ t := by
    have h0 : 0 < sv.length := by omega
    rcases sv with _ | ⟨i₀, rest⟩
    · simp at h0
    · have hv : vals.getD i₀ 0 = 1 := hone
      rw [ht]
      show 1 ≤ countLeadingEq vals 1 (i₀ :: rest)
      simp only [countLeadingEq]
      rw [if_pos hv]
      omega
  have hzero_at : ∀ p, t ≤ p → p < sv.length → vals.getD (sv.getD p 0) 0 = 0 := by
    intro p hp₁ hp₂
    have htlt : t < sv.length := by omega
    have hne₁ : vals.getD (sv.getD t 0) 0 ≠ 1 := countLeadingEq_ne vals 1 sv htlt
    have hle₁ : vals.getD (sv.getD t 0) 0 ≤ 1 := by
      calc vals.getD (sv.getD t 0) 0 ≤ vals.getD (sv.getD 0 0) 0 :=
            sortedSV_getD_le hsor (by omega) htlt
        _ = 1 := hone
    have hzt : vals.getD (sv.getD t 0) 0 = 0 := by omega
    rcases Nat.eq_or_lt_of_le hp₁ with rfl | hlt
    · exact hzt
    · have := sortedSV_getD_le hsor hlt hp₂
      omega
  have hsump : w.sum = vals.sum := valsAt_sum hperm
  have hsplit := List.sum_take_add_sum_drop w t
  have hdrop : (w.drop t).sum = 0 := by
    refine List.sum_eq_zero ?_
    intro x hx
    obtain ⟨q, hq, rfl⟩ := List.mem_iff_getElem.mp hx
    rw [List.getElem_drop]
    have hq₂ : t + q < w.length := by
      have := List.length_drop t w
      omega
    rw [← List.getD_eq_getElem w 0 hq₂, hw, valsAt_getD (by omega)]
    exact hzero_at (t + q) (by omega) (by omega)
  have htake : (w.take t).sum ≤ t := by
    have h₁ : ∀ x ∈ w.take t, x ≤ 1 := fun x hx => hall x (List.mem_of_mem_take hx)
    have h₂ := List.sum_le_card_nsmul (w.take t) 1 h₁
    have h₃ : (w.take t).length ≤ t := by
      rw [List.length_take]
      omega
    simp only [smul_eq_mul, mul_one] at h₂
    omega
  omega

theorem normalize_spec (verticals : List Nat) (hlen : 2 ≤ verticals.length)
    (hsum : verticals.sum ≠ 50)
    (hz : 50 < verticals.sum ∨ TwoPos verticals) :
    (normalize_to_NUM_OF_VERTICALS verticals verticals.sum).length = verticals.length ∧
    (normalize_to_NUM_OF_VERTICALS verticals verticals.sum).sum = 50 ∧
    (∀ i, verticals.getD i 0 = 0 →
      (normalize_to_NUM_OF_VERTICALS verticals verticals.sum).getD i 0 = 0) := by
  unfold normalize_to_NUM_OF_VERTICALS
  simp only [NUM_OF_VERTICALS, decide_eq_true_eq]
  by_cases hov : 50 < verticals.sum
  all_goals
    set sv := resortSV verticals (List.range verticals.length) with hsv
    have hperm : sv.Perm (List.range verticals.length) := by
      rw [hsv]
      exact resortSV_perm _ _
    have hsor : sortedSV verticals sv := by
      rw [hsv]
      exact resortSV_sorted _ _
    have hnd : sv.Nodup := perm_range_nodup hperm
    have hsvlen : sv.length = verticals.length := perm_range_length hperm
    set mval := svGet verticals sv 0 with hmval
    set t := countLeadingEq verticals mval sv with ht
    have htle : t ≤ sv.length := by
      rw [ht]
      exact countLeadingEq_le _ _ _
    have htval : ∀ j, j < t → verticals.getD (sv.getD j 0) 0 = mval := by
      intro j hj
      exact countLeadingEq_eq verticals mval sv j (ht ▸ hj)
    have hbound : ∀ j, j < sv.length → sv.getD j 0 < verticals.length :=
      fun j hj => perm_range_getD_lt hperm hj
  · -- over case
    have hmpos : 1 ≤ mval := by
      rw [hmval]
      exact head_pos_of_sum hperm hsor (by omega) (by omega)
    rw [decide_eq_true hov]
    split_ifs with c₁ c₂ c₃
    · -- tie block ran and consumed the whole difference
      have hmin : (verticals.sum - 50) ⊓ t = verticals.sum - 50 := by omega
      obtain ⟨r1, r2, -, r4, -, -, -⟩ :=
        tieAdjust_spec true sv ((verticals.sum - 50) ⊓ t) 0 verticals mval hnd
          (by omega) (fun j hj₁ hj₂ => ⟨hbound j (by omega), htval j (by omega)⟩) hmpos
      refine ⟨r1, ?_, ?_⟩
      · have := r2 rfl
        omega
      · intro i hzi
        refine (r4 i ?_).trans hzi
        intro j hj₁ hj₂ heq
        have hv := htval j (by omega)
        rw [heq, hzi] at hv
        omega
    · -- tie block ran, difference remains: first adjust, resort, loop
      have hmin : (verticals.sum - 50) ⊓ t = t := by omega
      have htlt : t < verticals.sum - 50 := by omega
      rw [hmin]
      obtain ⟨r1, r2, -, r4, r5, -, -⟩ :=
        tieAdjust_spec true sv t 0 verticals mval hnd (by omega)
          (fun j hj₁ hj₂ => ⟨hbound j (by omega), htval j (by omega)⟩) hmpos
      have hs₁ : (tieAdjust true sv 0 t verticals).sum + t = verticals.sum := r2 rfl
      have hl₁ : (tieAdjust true sv 0 t verticals).length = verticals.length := r1
      have hm2 : 2 ≤ mval := by
        by_contra hc
        have hm1 : mval = 1 := by omega
        have hle₂ := sum_le_tie_of_max_one hperm hsor (by omega) (by rw [← hmval]; omega)
        rw [← hm1, ← ht] at hle₂
        omega
      have hv0 : svGet (tieAdjust true sv 0 t verticals) sv 0 = mval - 1 :=
        r5 rfl 0 (le_refl _) (by omega)
      rw [hv0]
      have hseteq : svSet (tieAdjust true sv 0 t verticals) sv 0 (mval - 1 - 1) =
          (tieAdjust true sv 0 t verticals).set (sv.getD 0 0) (mval - 1 - 1) := rfl
      rw [hseteq]
      set vals₁ := tieAdjust true sv 0 t verticals with hv₁
      have hib : sv.getD 0 0 < verticals.length := hbound 0 (by omega)
      have hib₁ : sv.getD 0 0 < vals₁.length := by
        rw [hl₁]
        exact hib
      have hgi₀ : vals₁.getD (sv.getD 0 0) 0 = mval - 1 := hv0
      set vals₂ := vals₁.set (sv.getD 0 0) (mval - 1 - 1) with hv₂
      have hl₂ : vals₂.length = verticals.length := by
        rw [hv₂, List.length_set, hl₁]
      have hs₂ : vals₂.sum = verticals.sum - t - 1 := by
        have := sum_set (l := vals₁) (mval - 1 - 1) hib₁
        rw [hgi₀, ← hv₂] at this
        omega
      have hperm₂ : (resortSV vals₂ sv).Perm (List.range vals₂.length) := by
        rw [hl₂]
        exact (resortSV_perm _ _).trans hperm
      obtain ⟨q1, q2, q3⟩ := normLoop_over_spec (verticals.sum - 50 - t - 1) vals₂
        (resortSV vals₂ sv) (by omega) hperm₂ (resortSV_sorted _ _) (by omega)
      refine ⟨q2.trans hl₂, q1, ?_⟩
      intro i hzi
      have hz₁ : vals₁.getD i 0 = 0 := by
        refine (r4 i ?_).trans hzi
        intro j hj₁ hj₂ heq
        have hv := htval j (by omega)
        rw [heq, hzi] at hv
        omega
      have hz₂ : vals₂.getD i 0 = 0 := by
        have hne : sv.getD 0 0 ≠ i := by
          intro he
          rw [he, hz₁] at hgi₀
          omega
        rw [hv₂, getD_set_ne hne]
        exact hz₁
      exact q3 i hz₂
    · omega
    · -- no tie block: first adjust, resort, loop
      have hd1 : 1 ≤ verticals.sum - 50 := by omega
      have hseteq : svSet verticals sv 0 (mval - 1) =
          verticals.set (sv.getD 0 0) (mval - 1) := rfl
      rw [hseteq]
      have hib : sv.getD 0 0 < verticals.length := hbound 0 (by omega)
      have hgi₀ : verticals.getD (sv.getD 0 0) 0 = mval := rfl
      set vals₂ := verticals.set (sv.getD 0 0) (mval - 1) with hv₂
      have hl₂ : vals₂.length = verticals.length := by
        rw [hv₂, List.length_set]
      have hs₂ : vals₂.sum = verticals.sum - 1 := by
        have := sum_set (l := verticals) (mval - 1) hib
        rw [hgi₀, ← hv₂] at this
        omega
      have hperm₂ : (resortSV vals₂ sv).Perm (List.range vals₂.length) := by
        rw [hl₂]
        exact (resortSV_perm _ _).trans hperm
      obtain ⟨q1, q2, q3⟩ := normLoop_over_spec (verticals.sum - 50 - 1) vals₂
        (resortSV vals₂ sv) (by omega) hperm₂ (resortSV_sorted _ _) (by omega)
      refine ⟨q2.trans hl₂, q1, ?_⟩
      intro i hzi
      have hz₂ : vals₂.getD i 0 = 0 := by
        have hne : sv.getD 0 0 ≠ i := by
          intro he
          rw [he, hzi] at hgi₀
          omega
        rw [hv₂, getD_set_ne hne]
        exact hzi
      exact q3 i hz₂
  · -- under case
    have htwo : TwoPos verticals := hz.resolve_left hov
    have hsecond : 1 ≤ svGet verticals sv 1 := second_pos hperm hsor htwo hlen
    have hmpos : 1 ≤ mval := by
      rw [hmval]
      refine le_trans hsecond ?_
      exact sortedSV_getD_le hsor (by omega) (by omega)
    have hslt : verticals.sum < 50 := by omega
    rw [decide_eq_false hov]
    split_ifs with c₁ c₂ c₃
    · -- tie block ran and consumed the whole difference
      have hmin : (50 - verticals.sum) ⊓ t = 50 - verticals.sum := by omega
      obtain ⟨r1, -, r3, r4, -, -, -⟩ :=
        tieAdjust_spec false sv ((50 - verticals.sum) ⊓ t) 0 verticals mval hnd
          (by omega) (fun j hj₁ hj₂ => ⟨hbound j (by omega), htval j (by omega)⟩) hmpos
      refine ⟨r1, ?_, ?_⟩
      · have := r3 rfl
        omega
      · intro i hzi
        refine (r4 i ?_).trans hzi
        intro j hj₁ hj₂ heq
        have hv := htval j (by omega)
        rw [heq, hzi] at hv
        omega
    · -- tie block ran, difference remains: first adjust without resort, loop
      have hmin : (50 - verticals.sum) ⊓ t = t := by omega
      have htlt : t < 50 - verticals.sum := by omega
      rw [hmin]
      obtain ⟨r1, -, r3, r4, -, r6, r7⟩ :=
        tieAdjust_spec false sv t 0 verticals mval hnd (by omega)
          (fun j hj₁ hj₂ => ⟨hbound j (by omega), htval j (by omega)⟩) hmpos
      have hs₁ : (tieAdjust false sv 0 t verticals).sum = verticals.sum + t := r3 rfl
      have hl₁ : (tieAdjust false sv 0 t verticals).length = verticals.length := r1
      have hv0 : svGet (tieAdjust false sv 0 t verticals) sv 0 = mval + 1 :=
        r6 rfl 0 (le_refl _) (by omega)
      rw [hv0]
      have hseteq : svSet (tieAdjust false sv 0 t verticals) sv 0 (mval + 1 + 1) =
          (tieAdjust false sv 0 t verticals).set (sv.getD 0 0) (mval + 1 + 1) := rfl
      rw [hseteq]
      set vals₁ := tieAdjust false sv 0 t verticals with hv₁
      have hVle : ∀ p, p < sv.length → vals₁.getD (sv.getD p 0) 0 ≤ mval + 1 := by
        intro p hp
        by_cases hpt : p < t
        · rw [r6 rfl p (Nat.zero_le _) (by omega)]
        · have hunch : vals₁.getD (sv.getD p 0) 0 = verticals.getD (sv.getD p 0) 0 := by
            refine r4 (sv.getD p 0) ?_
            intro j hj₁ hj₂
            exact nodup_getD_ne hnd (by omega) hp (by omega)
          rw [hunch]
          rcases Nat.eq_zero_or_pos p with rfl | hppos
          · have : verticals.getD (sv.getD 0 0) 0 = mval := rfl
            omega
          · have h₂ := sortedSV_getD_le hsor hppos hp
            have hm0 : verticals.getD (sv.getD 0 0) 0 = mval := rfl
            omega
      have hsor₁ : sortedSV vals₁ sv := by
        rw [sortedSV, List.pairwise_iff_getElem]
        intro a b ha hb hab
        rw [← List.getD_eq_getElem sv 0 ha, ← List.getD_eq_getElem sv 0 hb]
        by_cases hbt : b < t
        · rw [r6 rfl a (Nat.zero_le _) (by omega), r6 rfl b (Nat.zero_le _) (by omega)]
        · have hunchb : vals₁.getD (sv.getD b 0) 0 = verticals.getD (sv.getD b 0) 0 := by
            refine r4 (sv.getD b 0) ?_
            intro j hj₁ hj₂
            exact nodup_getD_ne hnd (by omega) hb (by omega)
          by_cases hat : a < t
          · rw [r6 rfl a (Nat.zero_le _) (by omega), hunchb]
            have hble : verticals.getD (sv.getD b 0) 0 ≤ mval := by
              have h₂ := sortedSV_getD_le hsor (show 0 < b by omega) hb
              have hm0 : verticals.getD (sv.getD 0 0) 0 = mval := rfl
              omega
            omega
          · have huncha : vals₁.getD (sv.getD a 0) 0 = verticals.getD (sv.getD a 0) 0 := by
              refine r4 (sv.getD a 0) ?_
              intro j hj₁ hj₂
              exact nodup_getD_ne hnd (by omega) ha (by omega)
            rw [huncha, hunchb]
            exact sortedSV_getD_le hsor hab hb
      obtain ⟨a, rest2, hsveq⟩ : ∃ a rest2, sv = a :: rest2 := by
        obtain ⟨a, b2, tl2, he⟩ := sv_decomp hperm hlen
        exact ⟨a, b2 :: tl2, he⟩
      have hi₀a : sv.getD 0 0 = a := by
        rw [hsveq]
        rfl
      have hgi₀ : vals₁.getD (sv.getD 0 0) 0 = mval + 1 := hv0
      have hsor₂ : sortedSV (vals₁.set (sv.getD 0 0) (mval + 1 + 1)) sv := by
        rw [hi₀a, hsveq]
        refine sortedSV_set_head ?_ ?_ ?_ ?_
        · have hnd₂ := hnd
          rw [hsveq] at hnd₂
          exact (List.nodup_cons.mp hnd₂).1
        · rw [hl₁, ← hi₀a]
          exact hbound 0 (by omega)
        · have hs₃ := hsor₁
          rw [hsveq] at hs₃
          exact sorted_tail hs₃
        · intro j hj
          obtain ⟨p, hp, rfl⟩ := List.mem_iff_getElem.mp hj
          have hsvp : sv.getD (p + 1) 0 = rest2[p] := by
            rw [hsveq]
            simp only [List.getD_cons_succ]
            exact List.getD_eq_getElem rest2 0 hp
          have hplen : p + 1 < sv.length := by
            rw [hsveq]
            simpa using hp
          have hv₃ := hVle (p + 1) hplen
          rw [hsvp] at hv₃
          omega
      set vals₂ := vals₁.set (sv.getD 0 0) (mval + 1 + 1) with hv₂
      have hib₁ : sv.getD 0 0 < vals₁.length := by
        rw [hl₁]
        exact hbound 0 (by omega)
      have hl₂ : vals₂.length = verticals.length := by
        rw [hv₂, List.length_set, hl₁]
      have hs₂ : vals₂.sum = verticals.sum + t + 1 := by
        have := sum_set (l := vals₁) (mval + 1 + 1) hib₁
        rw [hgi₀, ← hv₂] at this
        omega
      have hperm₂ : sv.Perm (List.range vals₂.length) := by
        rw [hl₂]
        exact hperm
      have htwo₂ : TwoPos vals₂ := by
        refine le_trans (le_trans htwo (r7 rfl)) ?_
        rw [hv₂]
        exact countP_set_ge (by omega) vals₁ _
      obtain ⟨q1, q2, q3⟩ := normLoop_under_spec (50 - verticals.sum - t - 1) vals₂
        sv (by omega) hperm₂ hsor₂ htwo₂ (by omega)
      refine ⟨q2.trans hl₂, q1, ?_⟩
      intro i hzi
      have hz₁ : vals₁.getD i 0 = 0 := by
        refine (r4 i ?_).trans hzi
        intro j hj₁ hj₂ heq
        have hv := htval j (by omega)
        rw [heq, hzi] at hv
        omega
      have hz₂ : vals₂.getD i 0 = 0 := by
        have hne : sv.getD 0 0 ≠ i := by
          intro he
          rw [he, hz₁] at hgi₀
          omega
        rw [hv₂, getD_set_ne hne]
        exact hz₁
      exact q3 i hz₂
    · omega
    · -- no tie block: first adjust without resort, loop
      have hd1 : 1 ≤ 50 - verticals.sum := by omega
      have hseteq : svSet verticals sv 0 (mval + 1) =
          verticals.set (sv.getD 0 0) (mval + 1) := rfl
      rw [hseteq]
      have hib : sv.getD 0 0 < verticals.length := hbound 0 (by omega)
      have hgi₀ : verticals.getD (sv.getD 0 0) 0 = mval := rfl
      obtain ⟨a, rest2, hsveq⟩ : ∃ a rest2, sv = a :: rest2 := by
        obtain ⟨a, b2, tl2, he⟩ := sv_decomp hperm hlen
        exact ⟨a, b2 :: tl2, he⟩
      have hi₀a : sv.getD 0 0 = a := by
        rw [hsveq]
        rfl
      have hsor₂ : sortedSV (verticals.set (sv.getD 0 0) (mval + 1)) sv := by
        rw [hi₀a, hsveq]
        refine sortedSV_set_head ?_ ?_ ?_ ?_
        · have hnd₂ := hnd
          rw [hsveq] at hnd₂
          exact (List.nodup_cons.mp hnd₂).1
        · rw [← hi₀a]
          exact hib
        · have hs₃ := hsor
          rw [hsveq] at hs₃
          exact sorted_tail hs₃
        · intro j hj
          have hble : verticals.getD j 0 ≤ mval := by
            have hs₃ := hsor
            rw [hsveq] at hs₃
            have h₂ := sorted_head_bound hs₃ j hj
            rw [← hi₀a] at h₂
            exact le_trans h₂ (le_of_eq hgi₀)
          omega
      set vals₂ := verticals.set (sv.getD 0 0) (mval + 1) with hv₂
      have hl₂ : vals₂.length = verticals.length := by
        rw [hv₂, List.length_set]
      have hs₂ : vals₂.sum = verticals.sum + 1 := by
        have := sum_set (l := verticals) (mval + 1) hib
        rw [hgi₀, ← hv₂] at this
        omega
      have hperm₂ : sv.Perm (List.range vals₂.length) := by
        rw [hl₂]
        exact hperm
      have htwo₂ : TwoPos vals₂ := by
        refine le_trans htwo ?_
        rw [hv₂]
        exact countP_set_ge (by omega) verticals _
      obtain ⟨q1, q2, q3⟩ := normLoop_under_spec (50 - verticals.sum - 1) vals₂
        sv (by omega) hperm₂ hsor₂ htwo₂ (by omega)
      refine ⟨q2.trans hl₂, q1, ?_⟩
      intro i hzi
      have hz₂ : vals₂.getD i 0 = 0 := by
        have hne : sv.getD 0 0 ≠ i := by
          intro he
          rw [he, hzi] at hgi₀
          omega
        rw [hv₂, getD_set_ne hne]
        exact hzi
      exact q3 i hz₂


theorem percent_to_verticals_zero : percent_to_verticals 0 = 0 := by
  simp [percent_to_verticals]

theorem percent_to_verticals_pos {p : ℚ} (hp : p ≠ 0) : 1 ≤ percent_to_verticals p := by
  rw [percent_to_verticals, if_neg hp]
  dsimp only
  split <;> omega

theorem percent_to_verticals_eq_zero {p : ℚ} :
    percent_to_verticals p = 0 ↔ p = 0 := by
  constructor
  · intro h
    by_contra hc
    have := percent_to_verticals_pos hc
    omega
  · intro h
    rw [h]
    exact percent_to_verticals_zero

theorem percent_to_verticals_100 : percent_to_verticals 100 = 50 := by
  rw [percent_to_verticals, if_neg (by norm_num)]
  have hr : round ((100 : ℚ) / 2) = 50 := by norm_num [round_eq]
  rw [hr]
  decide

theorem map_percent_getD (ps : List ℚ) (i : Nat) :
    (ps.map percent_to_verticals).getD i 0 = percent_to_verticals (ps.getD i 0) := by
  by_cases hi : i < ps.length
  · rw [List.getD_eq_getElem _ _ (by simpa using hi), List.getD_eq_getElem _ _ hi]
    simp
  · rw [List.getD_eq_default _ _ (by simpa using Nat.not_lt.mp hi),
      List.getD_eq_default _ _ (Nat.not_lt.mp hi), percent_to_verticals_zero]

theorem countP_map_percent (ps : List ℚ) :
    (ps.map percent_to_verticals).countP (fun v => v != 0) =
      ps.countP (fun p => p != 0) := by
  rw [List.countP_map]
  refine List.countP_congr ?_
  intro p _
  simp only [Function.comp_apply, bne_iff_ne, ne_eq]
  constructor
  · intro h₁ h₂
    exact h₁ (percent_to_verticals_eq_zero.mpr h₂)
  · intro h₁ h₂
    exact h₁ (percent_to_verticals_eq_zero.mp h₂)

theorem map_percent_sum_single :
    ∀ (ps : List ℚ), ps.countP (fun p => p != 0) ≤ 1 →
      (ps.map percent_to_verticals).sum = percent_to_verticals ps.sum
  | [], _ => by simp [percent_to_verticals_zero]
  | p :: rest, h => by
    by_cases hp : p = 0
    · subst hp
      have hcount : rest.countP (fun p => p != 0) ≤ 1 := by
        rw [List.countP_cons] at h
        omega
      simp only [List.map_cons, List.sum_cons, percent_to_verticals_zero, List.sum_cons,
        zero_add]
      exact map_percent_sum_single rest hcount
    · have hcz : rest.countP (fun p => p != 0) = 0 := by
        have hbp : (p != 0) = true := by simpa using hp
        rw [List.countP_cons, hbp] at h
        have h₂ : (if true = true then 1 else 0) = 1 := rfl
        rw [h₂] at h
        omega
      have hallz : ∀ x ∈ rest, x = 0 := by
        intro x hx
        have := List.countP_eq_zero.mp hcz x hx
        simpa using this
      have hsz : rest.sum = 0 := by
        refine List.sum_eq_zero ?_
        exact hallz
      have hmz : (rest.map percent_to_verticals).sum = 0 := by
        refine List.sum_eq_zero ?_
        intro x hx
        obtain ⟨c, hc, rfl⟩ := List.mem_map.mp hx
        rw [hallz c hc]
        exact percent_to_verticals_zero
      simp only [List.map_cons, List.sum_cons, hmz, hsz, add_zero]

/-- C9: on a percentage vector with at least two entries, nonnegative entries
summing to 100, get_num_of_verticals returns a vector of the same length
whose entries sum to exactly NUM_OF_VERTICALS = 50, and every zero percentage
is mapped to zero verticals. -/
theorem C9_verticals_normalization :
    ∀ (percentages : List ℚ), 2 ≤ percentages.length →
      (∀ p ∈ percentages, 0 ≤ p) → percentages.sum = 100 →
      (get_num_of_verticals percentages).length = percentages.length ∧
      (get_num_of_verticals percentages).sum = NUM_OF_VERTICALS ∧
      (∀ i, percentages.getD i 0 = 0 →
        (get_num_of_verticals percentages).getD i 0 = 0) := by
  intro ps hlen hnn hsum
  unfold get_num_of_verticals
  simp only [NUM_OF_VERTICALS]
  have hmaplen : (ps.map percent_to_verticals).length = ps.length := List.length_map _ _
  by_cases hs : (ps.map percent_to_verticals).sum ≠ 50
  · rw [if_pos hs]
    have hz : 50 < (ps.map percent_to_verticals).sum ∨ TwoPos (ps.map percent_to_verticals) := by
      by_cases hov : 50 < (ps.map percent_to_verticals).sum
      · exact Or.inl hov
      · refine Or.inr ?_
        rw [TwoPos, countP_map_percent]
        by_contra hc
        have hone : ps.countP (fun p => p != 0) ≤ 1 := by omega
        have := map_percent_sum_single ps hone
        rw [hsum, percent_to_verticals_100] at this
        exact hs this
    obtain ⟨q1, q2, q3⟩ := normalize_spec (ps.map percent_to_verticals)
      (by omega) hs hz
    refine ⟨q1.trans hmaplen, q2, ?_⟩
    intro i hzi
    refine q3 i ?_
    rw [map_percent_getD, hzi]
    exact percent_to_verticals_zero
  · rw [if_neg hs]
    refine ⟨hmaplen, by omega, ?_⟩
    intro i hzi
    rw [map_percent_getD, hzi]
    exact percent_to_verticals_zero

/-- Witness for C9 at a concrete percentage vector. -/
theorem C9_verticals_normalization_witness :
    (get_num_of_verticals [60, 40]).length = 2 ∧
    (get_num_of_verticals [60, 40]).sum = NUM_OF_VERTICALS ∧
    (∀ i, ([60, 40] : List ℚ).getD i 0 = 0 → (get_num_of_verticals [60, 40]).getD i 0 = 0) :=
  C9_verticals_normalization [60, 40] (by norm_num) (by norm_num) (by norm_num)

end Mezura
